import Mathlib

set_option maxHeartbeats 1000000
set_option linter.unusedSectionVars false

/-!
Verification of claims about the repository `061012/sage` against a shallow
Lean embedding of its Python sources.  Each section embeds one module of the
repository; the claim theorems follow the definitions they are about.
-/

namespace SageVerify

/-! ### Digraphs and `GraphPaths` (`src/sage/combinat/graph_path.py`) -/

/-- Modelled from the spec: a Sage `DiGraph` as consumed by `graph_path.py`
(the class `DiGraph` itself is host-framework code, not part of this
repository).  It is a finite vertex list together with a finite list of
directed edges; parallel edges occur several times in the list, matching a
multi-digraph.  `x in g` tests vertex membership. -/
structure PyDiGraph (V : Type) where
  vertices : List V
  edges : List (V × V)

variable {V : Type} [DecidableEq V]

/-- `GraphPaths_common.outgoing_edges`: the list of edges leaving `v`
(the order of `outgoing_edge_iterator` is modelled by edge-list order). -/
def outgoingEdges (g : PyDiGraph V) (v : V) : List (V × V) :=
  g.edges.filter (fun e => e.1 = v)

/-- `GraphPaths_common.incoming_edges`: the list of edges entering `v`. -/
def incomingEdges (g : PyDiGraph V) (v : V) : List (V × V) :=
  g.edges.filter (fun e => e.2 = v)

/-- Sequencing of an option-valued function over a list (the monadic map
used to model a Python `for` loop whose body may fail to terminate). -/
def optMapM {α β : Type} (f : α → Option β) : List α → Option (List β)
  | [] => some []
  | a :: as => (f a).bind fun b => (optMapM f as).map fun bs => b :: bs

/-- `GraphPaths_common.outgoing_paths`, with explicit recursion fuel: the
Python method recurses along outgoing edges without any cycle check, so it
need not terminate on a cyclic digraph; the model returns `none` when the
fuel runs out.  `source_paths` starts as `[[v]]` and, for each outgoing
edge in order, the paths from the edge's endpoint are prefixed with `v`
and appended. -/
def outgoingPathsF (g : PyDiGraph V) : ℕ → V → Option (List (List V))
  | 0, _ => none
  | fuel + 1, v =>
    (optMapM (fun e =>
        (outgoingPathsF g fuel e.2).map (fun tp => tp.map (fun path => v :: path)))
        (outgoingEdges g v)).map
      (fun blocks => [v] :: blocks.flatten)

/-- `GraphPaths_common.incoming_paths`, with explicit recursion fuel. -/
def incomingPathsF (g : PyDiGraph V) : ℕ → V → Option (List (List V))
  | 0, _ => none
  | fuel + 1, v =>
    (optMapM (fun e =>
        (incomingPathsF g fuel e.1).map (fun sp => sp.map (fun path => path ++ [v])))
        (incomingEdges g v)).map
      (fun blocks => [v] :: blocks.flatten)

/-- `GraphPaths_common.paths_from_source_to_target`: keep the outgoing paths
of `source` whose last vertex is `target` (`path[-1] == target`). -/
def pathsFromSourceToTargetF (g : PyDiGraph V) (fuel : ℕ) (source target : V) :
    Option (List (List V)) :=
  (outgoingPathsF g fuel source).map (List.filter (fun path => path.getLast? = some target))

/-- The number of edge sequences realizing the vertex list as a directed
path: the product, over consecutive vertices, of the edge multiplicities.
A one-vertex list is the trivial path (weight 1); the empty list is not a
path. -/
def pathWeight (g : PyDiGraph V) : List V → ℕ
  | [] => 0
  | [_] => 1
  | a :: b :: rest => g.edges.countP (fun e => e = (a, b)) * pathWeight g (b :: rest)

lemma optMapM_congr {α β : Type} (l : List α) (f h : α → Option β)
    (hfh : ∀ a ∈ l, f a = h a) : optMapM f l = optMapM h l := by
  induction l with
  | nil => rfl
  | cons a as ih =>
    simp only [optMapM, hfh a (List.mem_cons_self a as),
      ih (fun x hx => hfh x (List.mem_cons_of_mem a hx))]

lemma optMapM_isSome {α β : Type} (l : List α) (f : α → Option β)
    (hf : ∀ a ∈ l, (f a).isSome) : (optMapM f l).isSome := by
  induction l with
  | nil => simp [optMapM]
  | cons a as ih =>
    obtain ⟨b, hb⟩ := Option.isSome_iff_exists.mp (hf a (List.mem_cons_self a as))
    obtain ⟨bs, hbs⟩ := Option.isSome_iff_exists.mp
      (ih (fun x hx => hf x (List.mem_cons_of_mem a hx)))
    simp [optMapM, hb, hbs]

lemma outgoingPathsF_isSome (g : PyDiGraph V) (rank : V → ℕ) (B : ℕ)
    (hr : ∀ e ∈ g.edges, rank e.1 < rank e.2) (hB : ∀ e ∈ g.edges, rank e.2 ≤ B) :
    ∀ fuel v, B + 1 - rank v < fuel → (outgoingPathsF g fuel v).isSome := by
  intro fuel
  induction fuel with
  | zero => intro v h; omega
  | succ m ih =>
    intro v h
    have hs : (optMapM (fun e =>
        (outgoingPathsF g m e.2).map (fun tp => tp.map (fun path => v :: path)))
        (outgoingEdges g v)).isSome := by
      apply optMapM_isSome
      intro e he
      have hmem : e ∈ g.edges ∧ e.1 = v := by
        simpa [outgoingEdges] using he
      have h1 : rank e.2 ≤ B := hB e hmem.1
      have h2 : rank e.1 < rank e.2 := hr e hmem.1
      have hv : rank v = rank e.1 := by rw [hmem.2]
      have h3 : B + 1 - rank e.2 < m := by omega
      obtain ⟨tp, htp⟩ := Option.isSome_iff_exists.mp (ih e.2 h3)
      simp [htp]
    obtain ⟨bs, hbs⟩ := Option.isSome_iff_exists.mp hs
    simp [outgoingPathsF, hbs]

lemma outgoingPathsF_stable (g : PyDiGraph V) (rank : V → ℕ) (B : ℕ)
    (hr : ∀ e ∈ g.edges, rank e.1 < rank e.2) (hB : ∀ e ∈ g.edges, rank e.2 ≤ B) :
    ∀ fuel₁ fuel₂ v, B + 1 - rank v < fuel₁ → B + 1 - rank v < fuel₂ →
      outgoingPathsF g fuel₁ v = outgoingPathsF g fuel₂ v := by
  intro fuel₁
  induction fuel₁ with
  | zero => intro fuel₂ v h1 _; omega
  | succ m ih =>
    intro fuel₂ v h1 h2
    cases fuel₂ with
    | zero => omega
    | succ k =>
      simp only [outgoingPathsF]
      congr 1
      apply optMapM_congr
      intro e he
      have hmem : e ∈ g.edges ∧ e.1 = v := by
        simpa [outgoingEdges] using he
      have hb1 : rank e.2 ≤ B := hB e hmem.1
      have hb2 : rank e.1 < rank e.2 := hr e hmem.1
      have hv : rank v = rank e.1 := by rw [hmem.2]
      rw [ih k e.2 (by omega) (by omega)]

lemma incomingPathsF_isSome (g : PyDiGraph V) (rank : V → ℕ) (B : ℕ)
    (hr : ∀ e ∈ g.edges, rank e.1 < rank e.2) (hB : ∀ e ∈ g.edges, rank e.2 ≤ B) :
    ∀ fuel v, min (rank v) (B + 1) < fuel → (incomingPathsF g fuel v).isSome := by
  intro fuel
  induction fuel with
  | zero => intro v h; omega
  | succ m ih =>
    intro v h
    have hs : (optMapM (fun e =>
        (incomingPathsF g m e.1).map (fun sp => sp.map (fun path => path ++ [v])))
        (incomingEdges g v)).isSome := by
      apply optMapM_isSome
      intro e he
      have hmem : e ∈ g.edges ∧ e.2 = v := by
        simpa [incomingEdges] using he
      have h1 : rank e.2 ≤ B := hB e hmem.1
      have h2 : rank e.1 < rank e.2 := hr e hmem.1
      have hv : rank v = rank e.2 := by rw [hmem.2]
      have h3 : min (rank e.1) (B + 1) < m := by omega
      obtain ⟨sp, hsp⟩ := Option.isSome_iff_exists.mp (ih e.1 h3)
      simp [hsp]
    obtain ⟨bs, hbs⟩ := Option.isSome_iff_exists.mp hs
    simp [incomingPathsF, hbs]

lemma incomingPathsF_stable (g : PyDiGraph V) (rank : V → ℕ) (B : ℕ)
    (hr : ∀ e ∈ g.edges, rank e.1 < rank e.2) (hB : ∀ e ∈ g.edges, rank e.2 ≤ B) :
    ∀ fuel₁ fuel₂ v, min (rank v) (B + 1) < fuel₁ → min (rank v) (B + 1) < fuel₂ →
      incomingPathsF g fuel₁ v = incomingPathsF g fuel₂ v := by
  intro fuel₁
  induction fuel₁ with
  | zero => intro fuel₂ v h1 _; omega
  | succ m ih =>
    intro fuel₂ v h1 h2
    cases fuel₂ with
    | zero => omega
    | succ k =>
      simp only [incomingPathsF]
      congr 1
      apply optMapM_congr
      intro e he
      have hmem : e ∈ g.edges ∧ e.2 = v := by
        simpa [incomingEdges] using he
      have hb1 : rank e.2 ≤ B := hB e hmem.1
      have hb2 : rank e.1 < rank e.2 := hr e hmem.1
      have hv : rank v = rank e.2 := by rw [hmem.2]
      rw [ih k e.1 (by omega) (by omega)]

/-- **C9.** `GraphPaths_common.outgoing_paths(v)` and `incoming_paths(v)`
terminate for every vertex of a finite directed graph with no directed
cycle: acyclicity is witnessed by a rank function that strictly increases
along every edge (values of edge endpoints bounded by `B`), the recursion
descends along edges, and for every vertex there is a stable value that the
fuel-indexed model reaches for every sufficiently large fuel; hence the
`list()`/`count()` methods built on these recursions terminate as well. -/
theorem claim_C9 (g : PyDiGraph V) (rank : V → ℕ) (B : ℕ)
    (hr : ∀ e ∈ g.edges, rank e.1 < rank e.2) (hB : ∀ e ∈ g.edges, rank e.2 ≤ B) :
    (∀ v, ∃ ps, ∀ fuel, B + 2 ≤ fuel → outgoingPathsF g fuel v = some ps) ∧
    (∀ v, ∃ ps, ∀ fuel, B + 2 ≤ fuel → incomingPathsF g fuel v = some ps) := by
  constructor
  · intro v
    have h1 : B + 1 - rank v < B + 2 := by omega
    obtain ⟨ps, hps⟩ := Option.isSome_iff_exists.mp
      (outgoingPathsF_isSome g rank B hr hB (B + 2) v h1)
    refine ⟨ps, fun fuel hf => ?_⟩
    rw [outgoingPathsF_stable g rank B hr hB fuel (B + 2) v (by omega) h1, hps]
  · intro v
    have h1 : min (rank v) (B + 1) < B + 2 := by omega
    obtain ⟨ps, hps⟩ := Option.isSome_iff_exists.mp
      (incomingPathsF_isSome g rank B hr hB (B + 2) v h1)
    refine ⟨ps, fun fuel hf => ?_⟩
    rw [incomingPathsF_stable g rank B hr hB fuel (B + 2) v (by omega) h1, hps]

/-- A witness running C9 on the multi-digraph of the module's doctests,
`DiGraph({1:[2,2,3], 2:[3,4], 3:[4], 4:[5,5]}, multiedges=True)`. -/
theorem claim_C9_witness :
    (∀ v, ∃ ps, ∀ fuel, 5 + 2 ≤ fuel →
      outgoingPathsF (PyDiGraph.mk [1, 2, 3, 4, 5]
        [(1, 2), (1, 2), (1, 3), (2, 3), (2, 4), (3, 4), (4, 5), (4, 5)]) fuel v = some ps) ∧
    (∀ v, ∃ ps, ∀ fuel, 5 + 2 ≤ fuel →
      incomingPathsF (PyDiGraph.mk ([1, 2, 3, 4, 5] : List ℕ)
        [(1, 2), (1, 2), (1, 3), (2, 3), (2, 4), (3, 4), (4, 5), (4, 5)]) fuel v = some ps) :=
  claim_C9 _ (fun v => v) 5 (by decide) (by decide)

lemma sum_map_headIte (es : List (V × V)) (b : V) (w : ℕ) :
    (es.map (fun e => if (some b : Option V) = some e.2 then w else 0)).sum =
      es.countP (fun e => e.2 = b) * w := by
  induction es with
  | nil => simp
  | cons e es ih =>
    rw [List.map_cons, List.sum_cons, List.countP_cons, ih, Nat.add_mul]
    by_cases h : e.2 = b
    · rw [if_pos (by rw [h]), if_pos (by simp [h]), Nat.one_mul, Nat.add_comm]
    · rw [if_neg (fun hc => h (by simpa using hc.symm)), if_neg (by simp [h]),
        Nat.zero_mul, Nat.add_zero, Nat.zero_add]

lemma count_map_cons (v : V) (tp : List (List V)) (q : List V) :
    (tp.map (fun path => v :: path)).count (v :: q) = tp.count q := by
  induction tp with
  | nil => rfl
  | cons t ts ih =>
    rw [List.map_cons, List.count_cons, List.count_cons, ih]
    by_cases h : t = q
    · subst h
      simp
    · have h1 : (v :: t == v :: q) = false := beq_eq_false_iff_ne.mpr (by simp [h])
      have h2 : (t == q) = false := beq_eq_false_iff_ne.mpr h
      rw [h1, h2]

lemma outF_blocks_head (g : PyDiGraph V) (m : ℕ) (v : V) :
    ∀ (es : List (V × V)) (blocks : List (List (List V))),
      optMapM (fun e => (outgoingPathsF g m e.2).map
        (fun tp => tp.map (fun path => v :: path))) es = some blocks →
      ∀ p : List V, p.head? ≠ some v → blocks.flatten.count p = 0 := by
  intro es
  induction es with
  | nil =>
    intro blocks hb p hp
    simp only [optMapM] at hb
    cases hb
    simp
  | cons e es ih =>
    intro blocks hb p hp
    simp only [optMapM, Option.bind_eq_some, Option.map_eq_some'] at hb
    obtain ⟨b, ⟨tp, _, rfl⟩, bs, hbs, rfl⟩ := hb
    rw [List.flatten_cons, List.count_append, ih bs hbs p hp]
    have hzero : (tp.map (fun path => v :: path)).count p = 0 := by
      apply List.count_eq_zero.mpr
      intro hmem
      obtain ⟨path, _, rfl⟩ := List.mem_map.mp hmem
      exact hp rfl
    rw [hzero]

lemma outF_blocks_count (g : PyDiGraph V) (m : ℕ) (v : V)
    (ih : ∀ w l, outgoingPathsF g m w = some l →
      ∀ p : List V, l.count p = if p.head? = some w then pathWeight g p else 0) :
    ∀ (es : List (V × V)) (blocks : List (List (List V))),
      optMapM (fun e => (outgoingPathsF g m e.2).map
        (fun tp => tp.map (fun path => v :: path))) es = some blocks →
      ∀ q : List V,
        blocks.flatten.count (v :: q) =
          (es.map (fun e => if q.head? = some e.2 then pathWeight g q else 0)).sum := by
  intro es
  induction es with
  | nil =>
    intro blocks hb q
    simp only [optMapM] at hb
    cases hb
    simp
  | cons e es ihes =>
    intro blocks hb q
    simp only [optMapM, Option.bind_eq_some, Option.map_eq_some'] at hb
    obtain ⟨b, ⟨tp, htp, rfl⟩, bs, hbs, rfl⟩ := hb
    rw [List.flatten_cons, List.count_append, ihes bs hbs q]
    rw [count_map_cons v tp q, ih e.2 tp htp q, List.map_cons, List.sum_cons]

lemma outgoingPathsF_count (g : PyDiGraph V) :
    ∀ fuel v l, outgoingPathsF g fuel v = some l →
      ∀ p : List V, l.count p = if p.head? = some v then pathWeight g p else 0 := by
  intro fuel
  induction fuel with
  | zero => intro v l h; simp [outgoingPathsF] at h
  | succ m ihf =>
    intro v l h p
    rw [outgoingPathsF, Option.map_eq_some'] at h
    obtain ⟨blocks, hblocks, rfl⟩ := h
    match p with
    | [] =>
      rw [List.count_cons,
        outF_blocks_head g m v (outgoingEdges g v) blocks hblocks [] (by simp)]
      simp
    | a :: q =>
      by_cases hav : a = v
      · subst hav
        rw [List.count_cons,
          outF_blocks_count g m a ihf (outgoingEdges g a) blocks hblocks q]
        match q with
        | [] => simp [pathWeight]
        | b :: q' =>
          simp only [List.head?_cons]
          rw [sum_map_headIte]
          have hcnt : (outgoingEdges g a).countP (fun e => e.2 = b) =
              g.edges.countP (fun e => e = (a, b)) := by
            rw [outgoingEdges, List.countP_filter]
            apply List.countP_congr
            intro e _
            simp only [Bool.and_eq_true, decide_eq_true_eq]
            constructor
            · rintro ⟨h2, h1⟩
              exact Prod.ext h1 h2
            · rintro rfl
              exact ⟨rfl, rfl⟩
          rw [hcnt]
          have hne : ([a] == a :: b :: q') = false := by
            rw [beq_eq_false_iff_ne]
            simp
          rw [hne]
          simp [pathWeight]
      · rw [List.count_cons,
          outF_blocks_head g m v (outgoingEdges g v) blocks hblocks (a :: q) (by simp [hav])]
        have hne : ¬ ((a :: q).head? = some v) := by simp [hav]
        rw [if_neg hne]
        have hvne : ([v] == a :: q) = false := by
          rw [beq_eq_false_iff_ne]
          intro hva
          exact hav (by injection hva with h1 h2; exact h1.symm)
        simp [hvne]

/-- **C4.** On a finite acyclic multi-digraph (acyclicity witnessed by a
rank strictly increasing along edges, endpoint ranks bounded by `B`),
`GraphPaths(g, s, t).list()` — i.e. `paths_from_source_to_target` — returns
a list whose entries are exactly the directed paths from `s` to `t`, with
one entry per distinct edge sequence: each vertex list `p` occurs with
multiplicity equal to the product of the multiplicities of its consecutive
edges when `p` leads from `s` to `t`, and multiplicity `0` otherwise.  In
particular the trivial path `[s]` occurs exactly once when `s = t`. -/
theorem claim_C4 (g : PyDiGraph V) (rank : V → ℕ) (B : ℕ)
    (hr : ∀ e ∈ g.edges, rank e.1 < rank e.2) (hB : ∀ e ∈ g.edges, rank e.2 ≤ B)
    (s t : V) (fuel : ℕ) (hfuel : B + 2 ≤ fuel) :
    ∃ l, pathsFromSourceToTargetF g fuel s t = some l ∧
      ∀ p : List V, l.count p =
        if p.head? = some s ∧ p.getLast? = some t then pathWeight g p else 0 := by
  obtain ⟨ps, hps⟩ := Option.isSome_iff_exists.mp
    (outgoingPathsF_isSome g rank B hr hB fuel s (by omega))
  refine ⟨ps.filter (fun path => path.getLast? = some t), ?_, ?_⟩
  · rw [pathsFromSourceToTargetF, hps]
    rfl
  · intro p
    have hcount := outgoingPathsF_count g fuel s ps hps p
    by_cases hlast : p.getLast? = some t
    · rw [List.count_filter (by simpa using hlast), hcount]
      by_cases hhead : p.head? = some s
      · rw [if_pos hhead, if_pos ⟨hhead, hlast⟩]
      · rw [if_neg hhead, if_neg (fun hc => hhead hc.1)]
    · have hmem : ¬ p ∈ ps.filter (fun path => path.getLast? = some t) := by
        intro hmem
        exact hlast (by simpa using (List.mem_filter.mp hmem).2)
      rw [List.count_eq_zero.mpr hmem, if_neg (fun hc => hlast hc.2)]

/-- A witness running C4 on the doctest graph
`DiGraph({1:[2,2,3], 2:[3,4], 3:[4], 4:[5,5]}, multiedges=True)` from
source `1` to target `3` (the doctest expects `[[1, 2, 3], [1, 2, 3], [1, 3]]`). -/
theorem claim_C4_witness :
    ∃ l, pathsFromSourceToTargetF
        (PyDiGraph.mk ([1, 2, 3, 4, 5] : List ℕ)
          [(1, 2), (1, 2), (1, 3), (2, 3), (2, 4), (3, 4), (4, 5), (4, 5)]) 7 1 3 = some l ∧
      ∀ p : List ℕ, l.count p =
        if p.head? = some 1 ∧ p.getLast? = some 3 then
          pathWeight (PyDiGraph.mk ([1, 2, 3, 4, 5] : List ℕ)
            [(1, 2), (1, 2), (1, 3), (2, 3), (2, 4), (3, 4), (4, 5), (4, 5)]) p
        else 0 :=
  claim_C4 _ (fun v => v) 5 (by decide) (by decide) 1 3 7 (by omega)

/-! #### The `GraphPaths` dispatcher (C10) -/

/-- The first argument of `GraphPaths` before the `isinstance(g, DiGraph)`
check: either an actual digraph or any other Python object. -/
inductive GraphArg (V : Type) where
  | digraph (g : PyDiGraph V)
  | notADigraph

/-- The errors `GraphPaths` can raise: `TypeError("g must be a DiGraph")`,
`ValueError("source must be in g")`, `ValueError("target must be in g")`. -/
inductive GPError where
  | typeErrNotDigraph
  | valueErrSource
  | valueErrTarget
deriving DecidableEq

/-- The four result classes `GraphPaths_all`, `GraphPaths_s`,
`GraphPaths_t`, `GraphPaths_st` with their `graph`/`source`/`target`
attributes as set by their `__init__` methods. -/
inductive GPResult (V : Type) where
  | all (g : PyDiGraph V)
  | fromSource (g : PyDiGraph V) (source : V)
  | toTarget (g : PyDiGraph V) (target : V)
  | betweenST (g : PyDiGraph V) (source target : V)

/-- The `graph` attribute of the returned paths object. -/
def GPResult.graphOf : GPResult V → PyDiGraph V
  | .all g => g
  | .fromSource g _ => g
  | .toTarget g _ => g
  | .betweenST g _ _ => g

/-- The `source` attribute of the returned paths object (absent for the
classes without a source). -/
def GPResult.sourceOf : GPResult V → Option V
  | .all _ => none
  | .fromSource _ s => some s
  | .toTarget _ _ => none
  | .betweenST _ s _ => some s

/-- The `target` attribute of the returned paths object (absent for the
classes without a target). -/
def GPResult.targetOf : GPResult V → Option V
  | .all _ => none
  | .fromSource _ _ => none
  | .toTarget _ t => some t
  | .betweenST _ _ t => some t

/-- The `GraphPaths` factory function: type check, then dispatch on which
of `source`/`target` are given, checking vertex membership. -/
def graphPaths (arg : GraphArg V) (source target : Option V) :
    Except GPError (GPResult V) :=
  match arg with
  | .notADigraph => .error .typeErrNotDigraph
  | .digraph g =>
    match source, target with
    | none, none => .ok (.all g)
    | some s, none =>
      if s ∈ g.vertices then .ok (.fromSource g s) else .error .valueErrSource
    | none, some t =>
      if t ∈ g.vertices then .ok (.toTarget g t) else .error .valueErrTarget
    | some s, some t =>
      if s ∈ g.vertices then
        if t ∈ g.vertices then .ok (.betweenST g s t) else .error .valueErrTarget
      else .error .valueErrSource

/-- **C10.** `GraphPaths` raises `TypeError` whenever `g` is not a
`DiGraph`; it raises `ValueError` whenever a supplied source or target is
not a vertex of `g`; and when no error is raised it returns a paths object
whose `graph`, `source` and `target` attributes are exactly the arguments
given. -/
theorem claim_C10 :
    (∀ source target : Option V,
      graphPaths GraphArg.notADigraph source target = .error .typeErrNotDigraph) ∧
    (∀ (g : PyDiGraph V) (source target : Option V),
      ((∃ s, source = some s ∧ s ∉ g.vertices) ∨ (∃ t, target = some t ∧ t ∉ g.vertices)) →
      ∃ e, graphPaths (GraphArg.digraph g) source target = .error e ∧
        (e = .valueErrSource ∨ e = .valueErrTarget)) ∧
    (∀ (g : PyDiGraph V) (source target : Option V) (r : GPResult V),
      graphPaths (GraphArg.digraph g) source target = .ok r →
      r.graphOf = g ∧ r.sourceOf = source ∧ r.targetOf = target) := by
  refine ⟨fun _ _ => rfl, ?_, ?_⟩
  · rintro g source target (⟨s, rfl, hs⟩ | ⟨t, rfl, ht⟩)
    · cases target with
      | none =>
        exact ⟨.valueErrSource, by simp [graphPaths, hs], Or.inl rfl⟩
      | some t =>
        exact ⟨.valueErrSource, by simp [graphPaths, hs], Or.inl rfl⟩
    · cases source with
      | none =>
        exact ⟨.valueErrTarget, by simp [graphPaths, ht], Or.inr rfl⟩
      | some s =>
        by_cases hs : s ∈ g.vertices
        · exact ⟨.valueErrTarget, by simp [graphPaths, hs, ht], Or.inr rfl⟩
        · exact ⟨.valueErrSource, by simp [graphPaths, hs], Or.inl rfl⟩
  · intro g source target r hok
    cases source with
    | none =>
      cases target with
      | none =>
        cases hok
        exact ⟨rfl, rfl, rfl⟩
      | some t =>
        by_cases ht : t ∈ g.vertices
        · rw [graphPaths] at hok
          simp only [ht, if_true] at hok
          cases hok
          exact ⟨rfl, rfl, rfl⟩
        · rw [graphPaths] at hok
          simp [ht] at hok
    | some s =>
      cases target with
      | none =>
        by_cases hs : s ∈ g.vertices
        · rw [graphPaths] at hok
          simp only [hs, if_true] at hok
          cases hok
          exact ⟨rfl, rfl, rfl⟩
        · rw [graphPaths] at hok
          simp [hs] at hok
      | some t =>
        by_cases hs : s ∈ g.vertices
        · by_cases ht : t ∈ g.vertices
          · rw [graphPaths] at hok
            simp only [hs, ht, if_true] at hok
            cases hok
            exact ⟨rfl, rfl, rfl⟩
          · rw [graphPaths] at hok
            simp [hs, ht] at hok
        · rw [graphPaths] at hok
          simp [hs] at hok

/-- A witness exercising C10: a non-vertex source on a one-vertex digraph
produces a `ValueError`. -/
theorem claim_C10_witness :
    ∃ e, graphPaths (GraphArg.digraph (PyDiGraph.mk ([1] : List ℕ) [])) (some 2) none
        = .error e ∧ (e = GPError.valueErrSource ∨ e = GPError.valueErrTarget) :=
  claim_C10.2.1 _ (some 2) none (Or.inl ⟨2, rfl, by decide⟩)

/-! ### Filtered modules with basis
(`src/sage/categories/filtered_modules_with_basis.py`)

An element of a filtered module with basis is modelled as a finitely
supported family of coefficients indexed by the basis, with a degree
function `d` on basis indices (`degree_on_basis`). -/

variable {I : Type} {R : Type} [AddCommMonoid R]

/-- `ElementMethods.truncate`: `sum_of_terms((i, c) for (i, c) in self if
degree_on_basis(i) < n)`. -/
def truncate (d : I → ℤ) (x : I →₀ R) (n : ℤ) : I →₀ R :=
  x.filter (fun i => d i < n)

/-- `ElementMethods.homogeneous_component`: `sum_of_terms((i, c) for (i, c)
in self if degree_on_basis(i) == n)`. -/
def homogeneousComponent (d : I → ℤ) (x : I →₀ R) (n : ℤ) : I →₀ R :=
  x.filter (fun i => d i = n)

/-- The loop of `ElementMethods.is_homogeneous`: walk the support keeping
the first degree seen; report `False` on the first differing degree. -/
def isHomogLoop (d : I → ℤ) : List I → Option ℤ → Bool
  | [], _ => true
  | m :: rest, none => isHomogLoop d rest (some (d m))
  | m :: rest, some deg => if deg ≠ d m then false else isHomogLoop d rest (some deg)

/-- `ElementMethods.is_homogeneous` (`self.support()` returns the support
as a sorted list). -/
def isHomogeneousFn [LinearOrder I] (d : I → ℤ) (x : I →₀ R) : Bool :=
  isHomogLoop d (x.support.sort (· ≤ ·)) none

/-- The declarative notion: all basis indices in the support have the same
degree. -/
def Homogeneous (d : I → ℤ) (x : I →₀ R) : Prop :=
  ∀ i ∈ x.support, ∀ j ∈ x.support, d i = d j

/-- The two errors of `ElementMethods.degree`:
`ValueError("the zero element does not have a well-defined degree")` and
`ValueError("element is not homogeneous")`. -/
inductive DegreeError where
  | zeroElement
  | notHomogeneous
deriving DecidableEq

/-- `ElementMethods.degree`: raise on the zero element, raise on a
non-homogeneous element, otherwise return `degree_on_basis` of the leading
support (modelled from the spec: `leading_support`, host-framework code,
returns the maximal index in the support). -/
def degreeFn [LinearOrder I] (d : I → ℤ) (x : I →₀ R) : Except DegreeError ℤ :=
  if h : x.support.Nonempty then
    if isHomogeneousFn d x then .ok (d (x.support.max' h)) else .error .notHomogeneous
  else .error .zeroElement

lemma isHomogLoop_some (d : I → ℤ) :
    ∀ (l : List I) (deg : ℤ), isHomogLoop d l (some deg) = true ↔ ∀ i ∈ l, d i = deg := by
  intro l
  induction l with
  | nil => simp [isHomogLoop]
  | cons m rest ih =>
    intro deg
    by_cases h : deg = d m
    · rw [isHomogLoop, if_neg (by simpa using h)]
      rw [ih deg]
      constructor
      · intro hrest i hi
        rcases List.mem_cons.mp hi with rfl | hi
        · exact h.symm
        · exact hrest i hi
      · intro hall i hi
        exact hall i (List.mem_cons_of_mem m hi)
    · rw [isHomogLoop, if_pos (by simpa using h)]
      constructor
      · intro hfalse
        exact absurd hfalse (by simp)
      · intro hall
        exact absurd (hall m (List.mem_cons_self m rest)).symm h

lemma isHomogeneousFn_iff [LinearOrder I] (d : I → ℤ) (x : I →₀ R) :
    isHomogeneousFn d x = true ↔ Homogeneous d x := by
  rw [isHomogeneousFn]
  rcases hl : x.support.sort (· ≤ ·) with _ | ⟨m, rest⟩
  · rw [isHomogLoop]
    simp only [true_iff]
    intro i hi
    have : i ∈ x.support.sort (· ≤ ·) := (Finset.mem_sort _).mpr hi
    rw [hl] at this
    cases this
  · rw [isHomogLoop, isHomogLoop_some]
    have hmem : ∀ i, i ∈ x.support ↔ (i = m ∨ i ∈ rest) := by
      intro i
      rw [← Finset.mem_sort (α := I) (· ≤ ·), hl, List.mem_cons]
    constructor
    · intro hrest i hi j hj
      have hdm : ∀ k ∈ x.support, d k = d m := by
        intro k hk
        rcases (hmem k).mp hk with rfl | hk
        · rfl
        · exact hrest k hk
      rw [hdm i hi, hdm j hj]
    · intro hhom i hi
      have him : m ∈ x.support := (hmem m).mpr (Or.inl rfl)
      have hii : i ∈ x.support := (hmem i).mpr (Or.inr hi)
      exact hhom i hii m him

/-- **C7.** `degree()` raises `ValueError` if and only if the element is
zero or not homogeneous; otherwise it returns the common value of
`degree_on_basis` over the support. -/
theorem claim_C7 [LinearOrder I] (d : I → ℤ) (x : I →₀ R) :
    ((∃ err, degreeFn d x = .error err) ↔ (x = 0 ∨ ¬ Homogeneous d x)) ∧
    (∀ i ∈ x.support, x ≠ 0 → Homogeneous d x → degreeFn d x = .ok (d i)) := by
  constructor
  · rw [degreeFn]
    by_cases h : x.support.Nonempty
    · rw [dif_pos h]
      by_cases hh : isHomogeneousFn d x
      · rw [if_pos hh]
        constructor
        · rintro ⟨err, herr⟩
          cases herr
        · rintro (hx0 | hnh)
          · exfalso
            rw [hx0] at h
            simp at h
          · exact absurd ((isHomogeneousFn_iff d x).mp hh) hnh
      · rw [if_neg hh]
        constructor
        · intro _
          exact Or.inr (fun hhom => hh ((isHomogeneousFn_iff d x).mpr hhom))
        · intro _
          exact ⟨.notHomogeneous, rfl⟩
    · rw [dif_neg h]
      constructor
      · intro _
        left
        rw [← Finsupp.support_eq_empty]
        exact Finset.not_nonempty_iff_eq_empty.mp h
      · intro _
        exact ⟨.zeroElement, rfl⟩
  · intro i hi hx0 hhom
    have h : x.support.Nonempty := ⟨i, hi⟩
    rw [degreeFn, dif_pos h, if_pos ((isHomogeneousFn_iff d x).mpr hhom)]
    exact congrArg Except.ok (hhom _ (x.support.max'_mem h) i hi)

/-- A witness for C7 on the element `5·P[2]` over `ℤ`, with
`degree_on_basis` the identity: its degree is `2`. -/
theorem claim_C7_witness :
    (Finsupp.single 2 (5 : ℤ) ≠ 0 ∧ Homogeneous (fun i : ℕ => (i : ℤ)) (Finsupp.single 2 (5 : ℤ)) ∧
      2 ∈ (Finsupp.single 2 (5 : ℤ)).support) ∧
    degreeFn (fun i : ℕ => (i : ℤ)) (Finsupp.single 2 (5 : ℤ)) = .ok 2 := by
  have hsupp : (Finsupp.single 2 (5 : ℤ)).support = {2} :=
    Finsupp.support_single_ne_zero 2 (by norm_num)
  have h2 : (2 : ℕ) ∈ (Finsupp.single 2 (5 : ℤ)).support := by rw [hsupp]; simp
  have hne : Finsupp.single 2 (5 : ℤ) ≠ 0 := by
    intro hc
    have := Finsupp.single_eq_zero.mp hc
    norm_num at this
  have hhom : Homogeneous (fun i : ℕ => (i : ℤ)) (Finsupp.single 2 (5 : ℤ)) := by
    intro i hi j hj
    rw [hsupp] at hi hj
    rw [Finset.mem_singleton.mp hi, Finset.mem_singleton.mp hj]
  exact ⟨⟨hne, hhom, h2⟩,
    (claim_C7 (fun i : ℕ => (i : ℤ)) (Finsupp.single 2 (5 : ℤ))).2 2 h2 hne hhom⟩

/-- **C5.** `truncate(n)` equals the sum of the homogeneous components of
the degrees `< n` occurring in the support; consequently the element is the
sum of all its homogeneous components. -/
theorem claim_C5 (d : I → ℤ) (x : I →₀ R) (n : ℤ) :
    truncate d x n =
      ∑ m ∈ (x.support.image d).filter (fun m => m < n), homogeneousComponent d x m ∧
    x = ∑ m ∈ x.support.image d, homogeneousComponent d x m := by
  have key : ∀ (S : Finset ℤ) (i : I),
      (∑ m ∈ S, homogeneousComponent d x m) i = if d i ∈ S then x i else 0 := by
    intro S i
    rw [Finset.sum_apply']
    have : ∀ m ∈ S, homogeneousComponent d x m i = if d i = m then x i else 0 := by
      intro m _
      rw [homogeneousComponent, Finsupp.filter_apply]
    rw [Finset.sum_congr rfl this, Finset.sum_ite_eq S (d i) (fun _ => x i)]
  constructor
  · ext i
    rw [truncate, Finsupp.filter_apply, key]
    by_cases hxi : x i = 0
    · simp [hxi]
    · have hi : i ∈ x.support := Finsupp.mem_support_iff.mpr hxi
      by_cases hlt : d i < n
      · rw [if_pos hlt, if_pos]
        rw [Finset.mem_filter]
        exact ⟨Finset.mem_image_of_mem d hi, hlt⟩
      · rw [if_neg hlt, if_neg]
        rw [Finset.mem_filter]
        rintro ⟨_, hc⟩
        exact hlt hc
  · ext i
    rw [key]
    by_cases hxi : x i = 0
    · simp [hxi]
    · rw [if_pos (Finset.mem_image_of_mem d (Finsupp.mem_support_iff.mpr hxi))]

/-! ### Lie algebras with structure coefficients
(`src/sage/algebras/lie_algebras/structure_coefficients.py`)

Basis indices carry a linear order modelling the default `generator_cmp`;
the standardized structure-coefficient table maps an ordered pair of basis
indices to the module element `self._s_coeff[b]`. -/

variable {B : Type} [LinearOrder B] {S : Type} [AddCommGroup S]
variable {R : Type} [Ring R] [DecidableEq R]

/-- `LieAlgebraWithStructureCoefficients.bracket_on_basis`: swap the
arguments into increasing order (`comp(x, y) > 0`), look the ordered pair
up in `self._s_coeff` (`KeyError` gives `self.zero()`), and negate the
value when the arguments were swapped. -/
def bracketOnBasis (sc : B × B → Option S) (x y : B) : S :=
  if x > y then
    match sc (y, x) with
    | none => 0
    | some val => -val
  else
    match sc (x, y) with
    | none => 0
    | some val => val

/-- Dictionary lookup in the association list modelling the dict `sc` of
`_standardize_s_coeff`. -/
def lookupKey [DecidableEq B] (sc : List ((B × B) × List (B × R))) (key : B × B) :
    Option (List (B × R)) :=
  (sc.find? (fun p => p.1 = key)).map (fun p => p.2)

/-- Dictionary store `sc[key] = vals` (replace in place, else append). -/
def putKey [DecidableEq B] (sc : List ((B × B) × List (B × R))) (key : B × B)
    (vals : List (B × R)) : List ((B × B) × List (B × R)) :=
  if (sc.find? (fun p => p.1 = key)).isSome then
    sc.map (fun p => if p.1 = key then (key, vals) else p)
  else sc ++ [(key, vals)]

/-- The tail of one `_standardize_s_coeff` loop iteration: raise
`ValueError("non-equal brackets")` when the key is present with a
different value up to reordering (`sorted(sc[key]) != sorted(vals)`), then
store the value when it is nonempty. -/
def scInsert [DecidableEq B] (sc : List ((B × B) × List (B × R))) (key : B × B)
    (vals : List (B × R)) : Except String (List ((B × B) × List (B × R))) :=
  match lookupKey sc key with
  | some old =>
    if ¬ ((old : Multiset (B × R)) = (vals : Multiset (B × R))) then
      .error "non-equal brackets"
    else if vals ≠ [] then .ok (putKey sc key vals) else .ok sc
  | none => if vals ≠ [] then .ok (putKey sc key vals) else .ok sc

/-- One `_standardize_s_coeff` loop iteration: order the key, negating and
stripping zero coefficients (the `assert` on an unordered equal pair is
modelled as an error). -/
def standardizeStep (sc : List ((B × B) × List (B × R)))
    (kv : (B × B) × List (B × R)) : Except String (List ((B × B) × List (B × R))) :=
  if kv.1.1 > kv.1.2 then
    scInsert sc (kv.1.2, kv.1.1)
      (kv.2.filterMap (fun gc => if gc.2 ≠ 0 then some (gc.1, -gc.2) else none))
  else if kv.1.1 < kv.1.2 then
    scInsert sc (kv.1.1, kv.1.2)
      (kv.2.filterMap (fun gc => if gc.2 ≠ 0 then some gc else none))
  else .error "elements not ordered"

/-- `LieAlgebraWithStructureCoefficients._standardize_s_coeff` over the
key/value pairs of the input dictionary in iteration order. -/
def standardizeSCoeff (l : List ((B × B) × List (B × R))) :
    Except String (List ((B × B) × List (B × R))) :=
  l.foldlM standardizeStep []

/-- Negate every coefficient of a structure-coefficient value. -/
def negVals (v : List (B × R)) : List (B × R) :=
  v.map (fun gc => (gc.1, -gc.2))

lemma standardizeSCoeff_singleton (kv : (B × B) × List (B × R)) :
    standardizeSCoeff [kv] = standardizeStep [] kv := by
  rw [standardizeSCoeff]
  simp only [List.foldlM_cons, List.foldlM_nil]
  cases standardizeStep ([] : List ((B × B) × List (B × R))) kv with
  | error e => rfl
  | ok s => rfl

lemma filterMap_negVals (c : List (B × R)) :
    (negVals c).filterMap (fun gc => if gc.2 ≠ 0 then some (gc.1, -gc.2) else none) =
      c.filterMap (fun gc => if gc.2 ≠ 0 then some gc else none) := by
  induction c with
  | nil => rfl
  | cons gc rest ih =>
    rw [negVals, List.map_cons, List.filterMap_cons, List.filterMap_cons]
    by_cases h : gc.2 = 0
    · rw [if_neg (by simp [h]), if_neg (by simp [h])]
      exact ih
    · rw [if_pos (by simp [h]), if_pos (by simp [h])]
      rw [neg_neg]
      exact congrArg (List.cons (gc.1, gc.2)) ih

/-- **C3.** The bracket of `LieAlgebraWithStructureCoefficients` is
antisymmetric on distinct basis indices, `bracket_on_basis(y, x) =
-bracket_on_basis(x, y)`; and `_standardize_s_coeff` maps the key `(x, y)`
with coefficients `c` and the reversed key `(y, x)` with coefficients `-c`
to the same standardized table, so the two constructions yield the same
algebra. -/
theorem claim_C3 :
    (∀ (sc : B × B → Option S) (x y : B), x ≠ y →
      bracketOnBasis sc y x = - bracketOnBasis sc x y) ∧
    (∀ (x y : B) (c : List (B × R)), x ≠ y →
      standardizeSCoeff [((x, y), c)] = standardizeSCoeff [((y, x), negVals c)]) := by
  constructor
  · intro sc x y hxy
    rcases lt_or_gt_of_ne hxy with h | h
    · rw [bracketOnBasis, bracketOnBasis, if_pos h, if_neg (not_lt_of_gt h)]
      cases sc (x, y) with
      | none => rw [neg_zero]
      | some val => rfl
    · rw [bracketOnBasis, bracketOnBasis, if_neg (not_lt_of_gt h), if_pos h]
      cases sc (y, x) with
      | none => rw [neg_zero]
      | some val => rw [neg_neg]
  · intro x y c hxy
    rw [standardizeSCoeff_singleton, standardizeSCoeff_singleton]
    rcases lt_or_gt_of_ne hxy with h | h
    · rw [standardizeStep, standardizeStep]
      rw [if_neg (by simpa using not_lt_of_gt h), if_pos (by simpa using h)]
      rw [if_pos (by simpa using h)]
      rw [filterMap_negVals]
    · rw [standardizeStep, standardizeStep]
      rw [if_pos (by simpa using h), if_neg (by simpa using not_lt_of_gt h)]
      rw [if_pos (by simpa using h)]
      rw [← filterMap_negVals, negVals, negVals]
      rw [List.map_map]
      have : ((fun gc : B × R => (gc.1, -gc.2)) ∘ fun gc : B × R => (gc.1, -gc.2)) = id := by
        funext gc
        simp
      rw [this, List.map_id]

/-- A witness applying C3 at the cross-product-style data `[x,y] = 5 z`
over `ℤ` with basis indices in `ℕ`. -/
theorem claim_C3_witness :
    (bracketOnBasis (fun p : ℕ × ℕ => if p = (1, 2) then some (3 : ℤ) else none) 2 1 =
      - bracketOnBasis (fun p : ℕ × ℕ => if p = (1, 2) then some (3 : ℤ) else none) 1 2) ∧
    standardizeSCoeff [((1, 2), [(0, (5 : ℤ))])] =
      standardizeSCoeff [((2, 1), negVals [(0, (5 : ℤ))])] :=
  ⟨(@claim_C3 ℕ _ ℤ _ ℤ _ _).1 _ 1 2 (by decide),
    (@claim_C3 ℕ _ ℤ _ ℤ _ _).2 1 2 [(0, (5 : ℤ))] (by decide)⟩

/-! ### Weyl algebras (`src/sage/algebras/weyl_algebra.py`)

A `WeylAlgebraElement` stores a dict `self.__monomials` mapping tuples of
derivative exponents to polynomial coefficients; the dict is modelled as an
association list with no duplicate keys (Python dict equality is equality
of key-value maps).  The coefficient ring `A` is the polynomial base ring;
its predicate `is_constant` and method `derivative` are host-framework
methods and are passed in as parameters `isConstB` and `derivFn`. -/

variable {n : ℕ} {A : Type} [CommRing A] [DecidableEq A]

/-- The zero exponent tuple. -/
def zeroExp (n : ℕ) : Fin n → ℕ := fun _ => 0

/-- The exponent tuple of the generator `d_i` (`L = [0]*ngens; L[i] = 1`). -/
def oneExp (i : Fin n) : Fin n → ℕ := fun j => if j = i then 1 else 0

/-- Pointwise sum of exponent tuples (`tuple(v + mr[i] ...)`). -/
def addExp (e f : Fin n → ℕ) : Fin n → ℕ := fun j => e j + f j

/-- Python `d.get(k)` on the association-list dict. -/
def dGet (d : List ((Fin n → ℕ) × A)) (k : Fin n → ℕ) : Option A :=
  (d.find? (fun p => p.1 = k)).map (fun p => p.2)

/-- Python `d.get(k, dflt)`. -/
def dGetD (d : List ((Fin n → ℕ) × A)) (k : Fin n → ℕ) (dflt : A) : A :=
  (dGet d k).getD dflt

/-- Python `d[k] = v`: replace in place, else append. -/
def dPut : List ((Fin n → ℕ) × A) → (Fin n → ℕ) → A → List ((Fin n → ℕ) × A)
  | [], k, v => [(k, v)]
  | p :: rest, k, v => if p.1 = k then (k, v) :: rest else p :: dPut rest k v

/-- Python `del d[k]`. -/
def dDel (d : List ((Fin n → ℕ) × A)) (k : Fin n → ℕ) : List ((Fin n → ℕ) × A) :=
  d.filter (fun p => ¬ p.1 = k)

/-- One pass (one `j` iteration) of the inner loop of `expand_derivative`:
iterate over a snapshot of the dict (`d.items()` is a list in Python 2),
sending `d[L] = d.get(L, 0) + d[m]` and then replacing `d[m]` by the
derivative of its snapshot value, or deleting it when that derivative is
zero. -/
def edPass (derivFn : Fin n → A → A) (i : Fin n)
    (snapshot d0 : List ((Fin n → ℕ) × A)) : List ((Fin n → ℕ) × A) :=
  snapshot.foldl (fun d mc =>
    let deriv := derivFn i mc.2
    let L := addExp mc.1 (oneExp i)
    let d1 := dPut d L (dGetD d L 0 + dGetD d mc.1 0)
    if deriv = 0 then dDel d1 mc.1 else dPut d1 mc.1 deriv) d0

/-- `expand_derivative(poly, exps)`: constants short-circuit to
`{exps: poly}`; otherwise start from `{(0,...,0): poly}` and run, for each
variable index `i` in order, `exps i` passes of the derivative expansion. -/
def expandDerivative (isConstB : A → Bool) (derivFn : Fin n → A → A)
    (poly : A) (exps : Fin n → ℕ) : List ((Fin n → ℕ) × A) :=
  if isConstB poly then [(exps, poly)]
  else (List.finRange n).foldl
    (fun d i => (fun dd => edPass derivFn i dd dd)^[exps i] d)
    [(zeroExp n, poly)]

/-- `WeylAlgebraElement._add_`. -/
def wAdd (a b : List ((Fin n → ℕ) × A)) : List ((Fin n → ℕ) × A) :=
  b.foldl (fun d mc =>
    let v := dGetD d mc.1 0 + mc.2
    if v = 0 then dDel d mc.1 else dPut d mc.1 v) a

/-- `WeylAlgebraElement._mul_`. -/
def wMul (isConstB : A → Bool) (derivFn : Fin n → A → A)
    (l r : List ((Fin n → ℕ) × A)) : List ((Fin n → ℕ) × A) :=
  l.foldl (fun d mlcl =>
    r.foldl (fun d mrcr =>
      (expandDerivative isConstB derivFn mrcr.2 mlcl.1).foldl (fun d tc =>
        let t := addExp tc.1 mrcr.1
        let v := dGetD d t 0 + mlcl.2 * tc.2
        if v = 0 then dDel d t else dPut d t v) d) d) []

/-- `WeylAlgebraElement._lmul_` (multiply `self` on the left of a base-ring
element `rhs`, i.e. `self * rhs`). -/
def wLmul (isConstB : A → Bool) (derivFn : Fin n → A → A)
    (self : List ((Fin n → ℕ) × A)) (rhs : A) : List ((Fin n → ℕ) × A) :=
  self.foldl (fun d mc =>
    (expandDerivative isConstB derivFn rhs mc.1).foldl (fun d tc =>
      let v := dGetD d tc.1 0 + mc.2 * tc.2
      if v = 0 then dDel d tc.1 else dPut d tc.1 v) d) []

/-- `WeylAlgebraElement._rmul_` (multiply `self` on the right of a base-ring
element `lhs`, i.e. `lhs * self`). -/
def wRmul (lhs : A) (self : List ((Fin n → ℕ) × A)) : List ((Fin n → ℕ) × A) :=
  if lhs = 0 then [] else self.map (fun mc => (mc.1, lhs * mc.2))

/-- `WeylAlgebra.gen(i)`. -/
def wGen (i : Fin n) : List ((Fin n → ℕ) × A) := [(oneExp i, (1 : A))]

/-- Modelled from the spec: the coercion of a base-ring element into the
Weyl algebra (host-framework coercion machinery): the zero polynomial maps
to the empty dict, anything else to a single constant term. -/
def ofPoly (p : A) : List ((Fin n → ℕ) × A) :=
  if p = 0 then [] else [(zeroExp n, p)]

/-- Python dict equality of `WeylAlgebraElement.__eq__`: the dicts define
the same key-value map. -/
def weylEq (a b : List ((Fin n → ℕ) × A)) : Prop :=
  ∀ k, dGet a k = dGet b k

lemma dGet_dPut_eq (d : List ((Fin n → ℕ) × A)) (k : Fin n → ℕ) (v : A) :
    dGet (dPut d k v) k = some v := by
  induction d with
  | nil => simp [dPut, dGet, List.find?]
  | cons p rest ih =>
    rw [dPut]
    by_cases h : p.1 = k
    · rw [if_pos h, dGet]
      simp [List.find?]
    · rw [if_neg h, dGet, List.find?_cons_of_neg _ (by simpa using h)]
      exact ih

lemma dGet_dPut_ne (d : List ((Fin n → ℕ) × A)) (k k' : Fin n → ℕ) (v : A)
    (h : k ≠ k') : dGet (dPut d k v) k' = dGet d k' := by
  induction d with
  | nil => simp [dPut, dGet, List.find?, h]
  | cons p rest ih =>
    rw [dPut]
    by_cases hp : p.1 = k
    · rw [if_pos hp, dGet, dGet, List.find?_cons_of_neg _ (by simpa using h),
        List.find?_cons_of_neg _ (by rw [hp]; simpa using h)]
    · rw [if_neg hp, dGet, dGet]
      by_cases hp' : p.1 = k'
      · rw [List.find?_cons_of_pos _ (by simpa using hp'),
          List.find?_cons_of_pos _ (by simpa using hp')]
      · rw [List.find?_cons_of_neg _ (by simpa using hp'),
          List.find?_cons_of_neg _ (by simpa using hp')]
        exact ih

lemma dGet_dDel_eq (d : List ((Fin n → ℕ) × A)) (k : Fin n → ℕ) :
    dGet (dDel d k) k = none := by
  rw [dGet, Option.map_eq_none', List.find?_eq_none]
  intro p hp
  have h2 := (List.mem_filter.mp hp).2
  simp only [decide_not, Bool.not_eq_true', decide_eq_false_iff_not] at h2
  simpa using h2

lemma dGet_dDel_ne (d : List ((Fin n → ℕ) × A)) (k k' : Fin n → ℕ)
    (h : k ≠ k') : dGet (dDel d k) k' = dGet d k' := by
  induction d with
  | nil => rfl
  | cons p rest ih =>
    by_cases hp : p.1 = k
    · have h1 : dDel (p :: rest) k = dDel rest k := by
        rw [dDel, dDel, List.filter_cons, if_neg (by simp [hp])]
      have h2 : dGet (p :: rest) k' = dGet rest k' := by
        rw [dGet, dGet, List.find?_cons_of_neg _ (by simp [hp, h])]
      rw [h1, ih, h2]
    · have h1 : dDel (p :: rest) k = p :: dDel rest k := by
        rw [dDel, dDel, List.filter_cons, if_pos (by simp [hp])]
      rw [h1]
      by_cases hp' : p.1 = k'
      · rw [dGet, dGet, List.find?_cons_of_pos _ (by simp [hp']),
          List.find?_cons_of_pos _ (by simp [hp'])]
      · rw [dGet, dGet, List.find?_cons_of_neg _ (by simp [hp']),
          List.find?_cons_of_neg _ (by simp [hp'])]
        exact ih

lemma dGet_cons (p : (Fin n → ℕ) × A) (rest : List ((Fin n → ℕ) × A)) (k : Fin n → ℕ) :
    dGet (p :: rest) k = if p.1 = k then some p.2 else dGet rest k := by
  by_cases h : p.1 = k
  · rw [if_pos h, dGet, List.find?_cons_of_pos _ (by simp [h])]
    rfl
  · rw [if_neg h, dGet, List.find?_cons_of_neg _ (by simp [h]), dGet]

lemma oneExp_ne_zeroExp (i : Fin n) : oneExp i ≠ zeroExp n := by
  intro h
  have := congrFun h i
  simp [oneExp, zeroExp] at this

lemma addExp_zero_oneExp (i : Fin n) : addExp (zeroExp n) (oneExp i) = oneExp i := by
  funext j
  simp [addExp, zeroExp]

lemma foldl_iterate_zero {X : Type} (f : Fin n → X → X) (g : Fin n → ℕ) :
    ∀ (l : List (Fin n)), (∀ j ∈ l, g j = 0) → ∀ d : X,
      l.foldl (fun d j => (f j)^[g j] d) d = d := by
  intro l
  induction l with
  | nil => intro _ d; rfl
  | cons j rest ih =>
    intro hl d
    rw [List.foldl_cons, hl j (List.mem_cons_self j rest), Function.iterate_zero_apply]
    exact ih (fun j' hj' => hl j' (List.mem_cons_of_mem j hj')) d

lemma foldl_iterate_single {X : Type} (f : Fin n → X → X) (g : Fin n → ℕ) (i : Fin n)
    (hg : ∀ j, j ≠ i → g j = 0) (hgi : g i = 1) :
    ∀ (l : List (Fin n)), l.Nodup → i ∈ l → ∀ d : X,
      l.foldl (fun d j => (f j)^[g j] d) d = f i d := by
  intro l
  induction l with
  | nil => intro _ hil; cases hil
  | cons j rest ih =>
    intro hnd hil d
    rw [List.foldl_cons]
    by_cases hj : j = i
    · subst hj
      rw [hgi, Function.iterate_one]
      have hnotin : j ∉ rest := (List.nodup_cons.mp hnd).1
      exact foldl_iterate_zero f g rest
        (fun j' hj' => hg j' (fun hc => hnotin (hc ▸ hj'))) (f j d)
    · rw [hg j hj, Function.iterate_zero_apply]
      have hil' : i ∈ rest := by
        rcases List.mem_cons.mp hil with hc | hc
        · exact absurd hc.symm hj
        · exact hc
      exact ih (List.nodup_cons.mp hnd).2 hil' d

lemma expandDerivative_single (isConstB : A → Bool) (derivFn : Fin n → A → A)
    (i : Fin n) (p : A) (h : isConstB p = false) :
    expandDerivative isConstB derivFn p (oneExp i) =
      if derivFn i p = 0 then [(oneExp i, p)]
      else [(zeroExp n, derivFn i p), (oneExp i, p)] := by
  rw [expandDerivative, if_neg (by simp [h])]
  rw [foldl_iterate_single (fun j dd => edPass derivFn j dd dd) (oneExp i) i
    (fun j hj => by simp [oneExp, hj]) (by simp [oneExp])
    (List.finRange n) (List.nodup_finRange n) (List.mem_finRange i)]
  rw [edPass, List.foldl_cons, List.foldl_nil]
  simp only [addExp_zero_oneExp]
  have hL : dGetD [(zeroExp n, p)] (oneExp i) 0 = 0 := by
    rw [dGetD, dGet, List.find?_cons_of_neg _ (by simp [Ne.symm (oneExp_ne_zeroExp i)])]
    rfl
  have hm : dGetD [(zeroExp n, p)] (zeroExp n) 0 = p := by
    rw [dGetD, dGet, List.find?_cons_of_pos _ (by simp)]
    rfl
  rw [hL, hm]
  have hput : dPut [(zeroExp n, p)] (oneExp i) (0 + p) =
      [(zeroExp n, p), (oneExp i, 0 + p)] := by
    rw [dPut, if_neg (Ne.symm (oneExp_ne_zeroExp i)), dPut]
  rw [hput]
  by_cases hd : derivFn i p = 0
  · rw [if_pos hd, if_pos hd]
    rw [dDel, List.filter_cons, if_neg (by simp), List.filter_cons,
      if_pos (by simp [oneExp_ne_zeroExp i]), List.filter_nil, zero_add]
  · rw [if_neg hd, if_neg hd]
    rw [dPut, if_pos rfl, zero_add]

lemma dGetD_nil (k : Fin n → ℕ) (c : A) : dGetD ([] : List ((Fin n → ℕ) × A)) k c = c := rfl

lemma dGetD_cons (p : (Fin n → ℕ) × A) (rest : List ((Fin n → ℕ) × A))
    (k : Fin n → ℕ) (c : A) :
    dGetD (p :: rest) k c = if p.1 = k then p.2 else dGetD rest k c := by
  rw [dGetD, dGet_cons]
  by_cases h : p.1 = k
  · rw [if_pos h, if_pos h]
    rfl
  · rw [if_neg h, if_neg h]
    rfl

lemma wLmul_gen (isConstB : A → Bool) (derivFn : Fin n → A → A) (i : Fin n) (p : A)
    (hc0 : isConstB 0 = true) (hcd : ∀ q, isConstB q = true → derivFn i q = 0) :
    wLmul isConstB derivFn (wGen i) p =
      if p = 0 then []
      else if derivFn i p = 0 then [(oneExp i, p)]
      else [(zeroExp n, derivFn i p), (oneExp i, p)] := by
  rw [wLmul, wGen, List.foldl_cons, List.foldl_nil]
  rcases hcb : isConstB p with _ | _
  · -- not constant; in particular p ≠ 0
    have hp0 : p ≠ 0 := fun hc => by rw [hc, hc0] at hcb; cases hcb
    rw [expandDerivative_single isConstB derivFn i p hcb, if_neg hp0]
    by_cases hd : derivFn i p = 0
    · rw [if_pos hd, List.foldl_cons, List.foldl_nil]
      simp only [dGetD_nil, zero_add, one_mul]
      rw [if_neg hp0, dPut]
    · rw [if_neg hd, List.foldl_cons, List.foldl_cons, List.foldl_nil]
      simp only [dGetD_nil, zero_add, one_mul]
      rw [if_neg hd, dPut]
      simp only [dGetD_cons, dGetD_nil]
      rw [if_neg (Ne.symm (oneExp_ne_zeroExp i)), zero_add]
      rw [if_neg hp0, dPut, if_neg (Ne.symm (oneExp_ne_zeroExp i)), dPut]
  · -- constant: the expansion short-circuits and the derivative is zero
    have hd : derivFn i p = 0 := hcd p hcb
    rw [expandDerivative, if_pos hcb, List.foldl_cons, List.foldl_nil]
    simp only [dGetD_nil, zero_add, one_mul]
    by_cases hp0 : p = 0
    · rw [if_pos hp0, if_pos hp0, dDel, List.filter_nil]
    · rw [if_neg hp0, if_neg hp0, if_pos hd, dPut]

lemma wAdd_nil_right (a : List ((Fin n → ℕ) × A)) : wAdd a [] = a := rfl

/-- The general commutation computation for `d_i * p`, `p * d_i` and the
embedded derivative, for any coefficient implementation whose `is_constant`
holds at `0` and forces a zero `derivative`. -/
theorem weylCommGeneral (isConstB : A → Bool) (derivFn : Fin n → A → A) (i : Fin n) (p : A)
    (hc0 : isConstB 0 = true) (hcd : ∀ q, isConstB q = true → derivFn i q = 0) :
    weylEq (wLmul isConstB derivFn (wGen i) p)
      (wAdd (wRmul p (wGen i)) (ofPoly (derivFn i p))) := by
  rw [wLmul_gen isConstB derivFn i p hc0 hcd]
  by_cases hp0 : p = 0
  · rw [if_pos hp0, hp0, hcd 0 hc0]
    rw [wRmul, if_pos rfl, ofPoly, if_pos rfl, wAdd_nil_right]
    intro k
    rfl
  · rw [if_neg hp0, wRmul, if_neg hp0, wGen, List.map_cons, List.map_nil]
    by_cases hd : derivFn i p = 0
    · rw [if_pos hd, hd, ofPoly, if_pos rfl, wAdd_nil_right]
      intro k
      rw [dGet_cons, dGet_cons]
      by_cases hk : oneExp i = k
      · rw [if_pos hk, if_pos hk, mul_one]
      · rw [if_neg hk, if_neg hk]
    · rw [if_neg hd, ofPoly, if_neg hd]
      rw [wAdd, List.foldl_cons, List.foldl_nil]
      have hget : dGetD [(oneExp i, p * 1)] (zeroExp n) 0 = 0 := by
        rw [dGetD, dGet, List.find?_cons_of_neg _ (by simp [oneExp_ne_zeroExp i])]
        rfl
      rw [hget, if_neg (by simpa using hd)]
      rw [dPut, if_neg (oneExp_ne_zeroExp i), dPut]
      intro k
      rw [dGet_cons, dGet_cons, dGet_cons, dGet_cons]
      by_cases hk1 : zeroExp n = k
      · rw [if_pos hk1, if_neg (fun hc => oneExp_ne_zeroExp i (hc.trans hk1.symm)),
          if_pos hk1, zero_add]
      · rw [if_neg hk1, if_neg hk1]
        by_cases hk2 : oneExp i = k
        · rw [if_pos hk2, if_pos hk2, mul_one]
        · rw [if_neg hk2, if_neg hk2]

/-- Sage's `is_constant` on a multivariate polynomial: no monomial of
positive degree occurs. -/
def mvIsConst {n : ℕ} {R : Type} [CommRing R] [DecidableEq R]
    (p : MvPolynomial (Fin n) R) : Bool :=
  decide (p.support ⊆ {0})

lemma mvIsConst_eq_C {n : ℕ} {R : Type} [CommRing R] [DecidableEq R]
    (p : MvPolynomial (Fin n) R) (h : mvIsConst p = true) :
    p = MvPolynomial.C (MvPolynomial.coeff 0 p) := by
  rw [mvIsConst, decide_eq_true_eq] at h
  apply MvPolynomial.ext
  intro m
  rw [MvPolynomial.coeff_C]
  by_cases hm : m = 0
  · rw [if_pos (by rw [hm]), hm]
  · rw [if_neg (fun hc => hm hc.symm)]
    by_contra hc
    have : m ∈ p.support := MvPolynomial.mem_support_iff.mpr hc
    have := h this
    rw [Finset.mem_singleton] at this
    exact hm this

/-- **C2.** In the Weyl algebra of a polynomial ring, for every generator
`d_i` and every polynomial `p`, `d_i * p == p * d_i + dp/dx_i` holds: the
product computed by `_lmul_`/`expand_derivative` equals, as a monomial
dict, the sum of the product `p * d_i` computed by `_rmul_` and the
embedded partial derivative of `p`. -/
theorem claim_C2 {n : ℕ} {R : Type} [CommRing R] [DecidableEq R]
    (i : Fin n) (p : MvPolynomial (Fin n) R) :
    weylEq (wLmul mvIsConst (fun j q => MvPolynomial.pderiv j q) (wGen i) p)
      (wAdd (wRmul p (wGen i)) (ofPoly (MvPolynomial.pderiv i p))) := by
  apply weylCommGeneral
  · rw [mvIsConst, decide_eq_true_eq]
    simp
  · intro q hq
    rw [mvIsConst_eq_C q hq]
    simp [MvPolynomial.pderiv_C]

/-! ### The `Recursion` transducer generator
(`src/sage/combinat/finite_state_machine_generators.py`)

Modelled from the spec: the host computer-algebra system's symbolic
expressions, as consumed by `parse_equation`.  An expression tree has
integer constants, variables (`va 0` is the recursion variable `var`),
n-ary sums and products (`operator.add` / `operator.mul` with their
operand lists), powers, applications of the recursion function `f`
(`fapp`), applications of any other function such as `sin` (`gapp`), and
equations (`operator.eq` with two operands). -/

inductive SE where
  | ic (z : ℤ)
  | va (idx : ℕ)
  | addE (args : List SE)
  | mulE (args : List SE)
  | powE (b e : SE)
  | fapp (args : List SE)
  | gapp (name : ℕ) (args : List SE)
  | eqE (lhs rhs : SE)

/-- Dense polynomial representation (coefficient list, constant first) with
no trailing zero: the canonical form of an element of `base_ring[var]`. -/
def polyTrim (p : List ℤ) : List ℤ :=
  (p.reverse.dropWhile (fun c => c = 0)).reverse

def polyAddAux : List ℤ → List ℤ → List ℤ
  | [], q => q
  | p, [] => p
  | a :: p, b :: q => (a + b) :: polyAddAux p q

def polyAdd (p q : List ℤ) : List ℤ := polyTrim (polyAddAux p q)

def polyMulAux : List ℤ → List ℤ → List ℤ
  | [], _ => []
  | a :: p, q => polyAddAux (q.map (fun c => a * c)) (0 :: polyMulAux p q)

def polyMul (p q : List ℤ) : List ℤ := polyTrim (polyMulAux p q)

def polyPow (p : List ℤ) (k : ℕ) : List ℤ :=
  (List.range k).foldl (fun acc _ => polyMul acc p) (polyTrim [1])

/-- Whether the recursion variable occurs in the expression
(`var in expression.variables()`; `is_scalar` is its negation). -/
def containsVar : SE → Bool
  | .ic _ => false
  | .va idx => idx = 0
  | .addE args => args.attach.any (fun a => containsVar a.1)
  | .mulE args => args.attach.any (fun a => containsVar a.1)
  | .powE b e => containsVar b || containsVar e
  | .fapp args => args.attach.any (fun a => containsVar a.1)
  | .gapp _ args => args.attach.any (fun a => containsVar a.1)
  | .eqE l r => containsVar l || containsVar r
decreasing_by
  all_goals simp_wf
  all_goals first
    | (have hsz := List.sizeOf_lt_of_mem a.2; omega)
    | omega

/-- Modelled from the spec: the conversion `base_ring[var](expression)` of
a symbolic expression into a univariate polynomial over `ℤ` in the
recursion variable; `none` models the conversion raising (caught by the
bare `except:`). -/
def toPoly : SE → Option (List ℤ)
  | .ic z => some (polyTrim [z])
  | .va 0 => some [0, 1]
  | .va (_ + 1) => none
  | .addE args => (optMapM (fun a => toPoly a.1) args.attach).map
      (fun ps => ps.foldl polyAdd [])
  | .mulE args => (optMapM (fun a => toPoly a.1) args.attach).map
      (fun ps => ps.foldl polyMul (polyTrim [1]))
  | .powE b e =>
    match e with
    | .ic k => if k < 0 then none else (toPoly b).map (fun pb => polyPow pb k.toNat)
    | _ => none
  | .fapp _ => none
  | .gapp _ _ => none
  | .eqE _ _ => none
decreasing_by
  all_goals simp_wf
  all_goals first
    | (have hsz := List.sizeOf_lt_of_mem a.2; omega)
    | omega

/-- `o.operator() == function` for the recursion function `f`. -/
def isF : SE → Bool
  | .fapp _ => true
  | _ => false

/-- Modelled from the spec: `log(x, base=base)` followed by the
`K in ZZ` test: the integer exponent `K` with `base ^ K = x`, when one
exists. -/
def findLog (b : ℕ) (x : ℤ) : Option ℕ :=
  (List.range (x.natAbs + 1)).find? (fun K => (b : ℤ) ^ K = x)

/-- A parsed recursion rule `f(base^K*n + r) == f(base^k*n + s) + t`
(`Rule = namedtuple('Rule', ['K', 'r', 'k', 's', 't'])`), with `t` still a
symbolic expression. -/
structure SRule where
  K : ℕ
  r : ℤ
  k : ℕ
  s : ℤ
  t : SE

/-- The result of one `parse_equation` call: an initial condition stored in
`initial_values` (key and right-hand side) or a rule appended to `rules`. -/
def ParseRes : Type := (ℤ × SE) ⊕ SRule

/-- The tail of `parse_equation` handling the `f`-evaluation on the right
side (from `if next_function.operator() != function` on). -/
def parseNext (base : ℕ) (K : ℕ) (r : ℤ) (nextFunction t : SE) :
    Except String ParseRes :=
  match nextFunction with
  | .fapp [ra] =>
    match toPoly ra with
    | none => .error "is not a polynomial in the variable"
    | some pr =>
      if pr.length ≠ 2 then .error "is not a polynomial of degree 1"
      else
        match findLog base (pr.getD 1 0) with
        | none => .error "is not a power of the base"
        | some k =>
          if k ≥ K then .error "is greater or equal"
          else .ok (.inr ⟨K, r, k, pr.headD 0, t⟩)
  | .fapp _ => .error "does not have exactly one argument"
  | _ => .error "is not an evaluation of f"

/-- `parse_equation` (the `k < 0` check of the source is unreachable here
because an integer logarithm of an integer to an integer base `≥ 2` is
never negative, and the defensive `assert equation == parsed_equation`,
which compares the reconstruction through the host symbolic engine and
cannot fail once the earlier checks have passed, is omitted). -/
def parseEquation (base : ℕ) (equation : SE) : Except String ParseRes :=
  match equation with
  | .eqE leftSide rightSide =>
    match leftSide with
    | .fapp largs =>
      match largs with
      | [la] =>
        match toPoly la with
        | none => .error "could not convert to a polynomial"
        | some pl =>
          if pl.length ≤ 1 ∧ containsVar rightSide = false then
            .ok (.inl (pl.headD 0, rightSide))
          else if pl.length ≠ 2 then .error "is not a polynomial of degree 1"
          else
            match findLog base (pl.getD 1 0) with
            | none => .error "is not a power of the base"
            | some K =>
              if K < 1 then .error "is less than the base"
              else if ¬ (0 ≤ pl.headD 0 ∧ pl.headD 0 < pl.getD 1 0) then
                .error "0 <= r < base^K does not hold"
              else
                match rightSide with
                | .addE args =>
                  match args.filter isF with
                  | [nextFunction] =>
                    if containsVar (SE.addE (args.filter (fun o => ¬ isF o))) then
                      .error "contains the variable"
                    else parseNext base K (pl.headD 0) nextFunction
                      (SE.addE (args.filter (fun o => ¬ isF o)))
                  | _ => .error
                      "does not contain exactly one summand which is an evaluation of f"
                | _ => parseNext base K (pl.headD 0) rightSide (SE.ic 0)
      | _ => .error "does not have one argument"
    | _ => .error "is not an evaluation of f"
  | _ => .error "is not an equation with =="

/-- The first admissible shape of C6: an initial condition `f(r) == t` with
constant `r` (the argument converts to a polynomial of degree `≤ 0`) and
right-hand side free of the recursion variable. -/
def AdmissibleInit (e : SE) : Prop :=
  ∃ la t c, e = .eqE (.fapp [la]) t ∧ toPoly la = some c ∧ c.length ≤ 1 ∧
    containsVar t = false

/-- The admissible right-hand sides of a recursion: either a single
`f`-evaluation at a degree-1 polynomial `base^k*n + s`, or a sum containing
exactly one such `f`-evaluation whose remaining summands are free of the
variable. -/
def RhsShape (base : ℕ) (k : ℕ) (s : ℤ) (rhs : SE) : Prop :=
  (∃ ra, rhs = .fapp [ra] ∧ toPoly ra = some [s, (base : ℤ) ^ k]) ∨
  (∃ args ra, rhs = .addE args ∧ args.filter isF = [SE.fapp [ra]] ∧
    toPoly ra = some [s, (base : ℤ) ^ k] ∧
    containsVar (SE.addE (args.filter (fun o => ¬ isF o))) = false)

/-- The second admissible shape of C6: a recursion
`f(base^K*n + r) == f(base^k*n + s) + t` with `0 <= k < K`,
`0 <= r < base^K`, both arguments degree-1 polynomials in the variable,
exactly one `f`-evaluation on the right, and `t` free of the variable. -/
def AdmissibleRec (base : ℕ) (e : SE) : Prop :=
  ∃ la rhs K r k s, e = .eqE (.fapp [la]) rhs ∧
    1 ≤ K ∧ k < K ∧
    toPoly la = some [r, (base : ℤ) ^ K] ∧ 0 ≤ r ∧ r < (base : ℤ) ^ K ∧
    RhsShape base k s rhs

lemma findLog_pow (b : ℕ) (x : ℤ) (K : ℕ) (h : findLog b x = some K) :
    (b : ℤ) ^ K = x := by
  rw [findLog] at h
  have h2 := List.find?_some h
  simpa using h2

lemma parseNext_sound (base K : ℕ) (r : ℤ) (nf t : SE) (res : ParseRes)
    (h : parseNext base K r nf t = .ok res) :
    ∃ ra k s, nf = .fapp [ra] ∧ toPoly ra = some [s, (base : ℤ) ^ k] ∧ k < K ∧
      res = .inr ⟨K, r, k, s, t⟩ := by
  unfold parseNext at h
  split at h
  case _ ra =>
    split at h
    · exact Except.noConfusion h
    · rename_i pr htp
      split at h
      · exact Except.noConfusion h
      · rename_i hlen
        push_neg at hlen
        obtain ⟨c0, c1, rfl⟩ := List.length_eq_two.mp hlen
        split at h
        · exact Except.noConfusion h
        · rename_i k hfl
          split at h
          · exact Except.noConfusion h
          · rename_i hk
            injection h with h
            refine ⟨ra, k, c0, rfl, ?_, by omega, h.symm⟩
            rw [htp]
            have hp := findLog_pow base (List.getD [c0, c1] 1 0) k hfl
            simp only [List.getD_cons_succ, List.getD_cons_zero] at hp
            rw [hp]
  case _ args hne =>
    exact Except.noConfusion h
  case _ hne1 hne2 =>
    exact Except.noConfusion h

lemma parseEquation_sound (base : ℕ) (e : SE) (res : ParseRes)
    (h : parseEquation base e = .ok res) :
    AdmissibleInit e ∨ AdmissibleRec base e := by
  unfold parseEquation at h
  split at h
  case _ leftSide rightSide =>
    split at h
    case _ largs =>
      split at h
      case _ la =>
        split at h
        · exact Except.noConfusion h
        · rename_i pl htp
          split at h
          case _ hinit =>
            left
            exact ⟨la, rightSide, pl, rfl, htp, hinit.1, hinit.2⟩
          case _ hinit =>
            split at h
            · exact Except.noConfusion h
            · rename_i hlen
              push_neg at hlen
              obtain ⟨c0, c1, rfl⟩ := List.length_eq_two.mp hlen
              split at h
              · exact Except.noConfusion h
              · rename_i K hfl
                split at h
                · exact Except.noConfusion h
                · rename_i hK
                  split at h
                  · exact Except.noConfusion h
                  · rename_i hr
                    push_neg at hr
                    have hpow : (base : ℤ) ^ K = c1 := by
                      have hp := findLog_pow base (List.getD [c0, c1] 1 0) K hfl
                      simpa using hp
                    have hla : toPoly la = some [c0, (base : ℤ) ^ K] := by
                      rw [htp, hpow]
                    have hr0 : 0 ≤ c0 := by simpa using hr.1
                    have hr1 : c0 < (base : ℤ) ^ K := by
                      rw [hpow]
                      simpa using hr.2
                    right
                    split at h
                    case _ args =>
                      split at h
                      case _ nextFunction hfilter =>
                        split at h
                        · exact Except.noConfusion h
                        · rename_i hcv
                          obtain ⟨ra, k, s, hnf, hra, hkK, _⟩ :=
                            parseNext_sound base K (List.headD [c0, c1] 0)
                              nextFunction
                              (SE.addE (args.filter (fun o => ¬ isF o))) res h
                          refine ⟨la, SE.addE args, K, c0, k, s, rfl, by omega,
                            hkK, hla, hr0, hr1, Or.inr ⟨args, ra, rfl, ?_, hra, ?_⟩⟩
                          · rw [hfilter, hnf]
                          · simpa using hcv
                      case _ hne =>
                        exact Except.noConfusion h
                    case _ hne =>
                      obtain ⟨ra, k, s, hnf, hra, hkK, _⟩ :=
                        parseNext_sound base K (List.headD [c0, c1] 0)
                          rightSide (SE.ic 0) res h
                      exact ⟨la, rightSide, K, c0, k, s, rfl, by omega, hkK, hla,
                        hr0, hr1, Or.inl ⟨ra, hnf, hra⟩⟩
      case _ hne =>
        exact Except.noConfusion h
    case _ hne =>
      exact Except.noConfusion h
  case _ hne =>
    exact Except.noConfusion h

/-- **C6.** `parse_equation` raises `ValueError` on — and therefore
`transducers.Recursion` adds no rule and no initial condition for — every
equation that is not of one of the two admissible shapes: an initial
condition `f(r) == t` with constant `r` and `t` free of the recursion
variable, or a recursion `f(base^K*n + r) == f(base^k*n + s) + t` with
`0 <= k < K`, `0 <= r < base^K`, degree-1 polynomial arguments, exactly one
`f`-evaluation on the right-hand side and remainder free of the variable. -/
theorem claim_C6 (base : ℕ) (e : SE)
    (hnadm : ¬ (AdmissibleInit e ∨ AdmissibleRec base e)) :
    ∃ msg, parseEquation base e = .error msg := by
  cases hres : parseEquation base e with
  | error msg => exact ⟨msg, rfl⟩
  | ok res => exact absurd (parseEquation_sound base e res hres) hnadm

/-- A witness for C6 on the doctest input `transducers.Recursion([f(4*n +
1)], f, n, 2)`: the bare term `f(4*n + 1)` is not an equation, so it is
inadmissible and parsing reports an error. -/
theorem claim_C6_witness :
    (¬ (AdmissibleInit (SE.fapp [SE.addE [SE.mulE [SE.ic 4, SE.va 0], SE.ic 1]]) ∨
        AdmissibleRec 2 (SE.fapp [SE.addE [SE.mulE [SE.ic 4, SE.va 0], SE.ic 1]]))) ∧
    ∃ msg, parseEquation 2 (SE.fapp [SE.addE [SE.mulE [SE.ic 4, SE.va 0], SE.ic 1]])
      = .error msg := by
  have hnadm : ¬ (AdmissibleInit (SE.fapp [SE.addE [SE.mulE [SE.ic 4, SE.va 0], SE.ic 1]]) ∨
      AdmissibleRec 2 (SE.fapp [SE.addE [SE.mulE [SE.ic 4, SE.va 0], SE.ic 1]])) := by
    rintro (⟨la, t, c, heq, _⟩ | ⟨la, rhs, K, r, k, s, heq, _⟩) <;> exact SE.noConfusion heq
  exact ⟨hnadm, claim_C6 2 _ hnadm⟩

/-! #### The residue table of `Recursion`

After parsing, `Recursion` expands every rule into the table
`residues[k][R]` for `k = rule.K + m`, `m = 0 .. max_K - rule.K`, raising
`ValueError("Conflicting rules congruent to %d modulo %d.")` on a doubly
written slot and `ValueError("Missing recursions for input congruent to %s
modulo %s.")` when a slot of the top level stays empty.  Note the literal
`2**rule.K` of the source in the expanded residue. -/

/-- `RuleRight = namedtuple('Rule', ['k', 's', 't'])`. -/
structure RuleRight where
  k : ℕ
  s : ℤ
  t : ℤ
deriving DecidableEq

/-- A parsed rule with its residue `r` (checked nonnegative) and its output
label `t` coerced into `ℤ` (`coerce_output` with the default
`output_rings=[ZZ, QQ]`). -/
structure Rule where
  K : ℕ
  r : ℕ
  k : ℕ
  s : ℤ
  t : ℤ
deriving DecidableEq

/-- The table `residues`, modelled as a function from level and residue to
the optional stored rule (writes stay in range on every non-raising run). -/
def ResTable : Type := ℕ → ℕ → Option RuleRight

/-- `residues = [[None for r in range(base**k)] for k in range(max_K + 1)]`. -/
def emptyTable : ResTable := fun _ _ => none

/-- `residues[L][R] = rr`. -/
def tableSet (tbl : ResTable) (L R : ℕ) (rr : RuleRight) : ResTable :=
  fun L' R' => if L' = L ∧ R' = R then some rr else tbl L' R'

/-- The two errors of the coverage check. -/
inductive CoverErr where
  | conflicting (R modulus : ℕ)
  | missing (residues : List ℕ) (modulus : ℕ)
deriving DecidableEq

/-- One write of the expansion loop, with its conflict check:
`R = rule.r + 2**rule.K * ell`, stored value
`RuleRight(k=rule.k + m, s=rule.s * base**m, t=rule.t)`. -/
def insertOne (b : ℕ) (rule : Rule) (m ell : ℕ) (tbl : ResTable) :
    Except CoverErr ResTable :=
  match tbl (rule.K + m) (rule.r + 2 ^ rule.K * ell) with
  | some _ => .error (.conflicting (rule.r + 2 ^ rule.K * ell) (b ^ (rule.K + m)))
  | none => .ok (tableSet tbl (rule.K + m) (rule.r + 2 ^ rule.K * ell)
      ⟨rule.k + m, rule.s * (b : ℤ) ^ m, rule.t⟩)

/-- The two inner loops over `m` and `ell` for one rule. -/
def insertRule (b maxK : ℕ) (tbl : ResTable) (rule : Rule) :
    Except CoverErr ResTable :=
  (List.range (maxK - rule.K + 1)).foldlM (fun tbl m =>
    (List.range (b ^ m)).foldlM (fun tbl ell => insertOne b rule m ell tbl) tbl) tbl

/-- `max_K = max(rule.K for rule in rules)` (the fold value coincides with
the Python `max` for a nonempty rule list; `max` of an empty sequence
raises in Python, so the claims assume a nonempty list). -/
def maxKOf (rules : List Rule) : ℕ := rules.foldl (fun a ru => max a ru.K) 0

/-- `missing_residues = [R for R, rule in enumerate(residues[max_K]) if
rule is None]`. -/
def missingResidues (b maxK : ℕ) (tbl : ResTable) : List ℕ :=
  (List.range (b ^ maxK)).filter (fun R => tbl maxK R = none)

/-- The residues-table construction of `Recursion` from the parsed rules:
the rule loop followed by the missing-residues check. -/
def buildResidues (b : ℕ) (rules : List Rule) : Except CoverErr ResTable :=
  (rules.foldlM (insertRule b (maxKOf rules)) emptyTable).bind (fun tbl =>
    if missingResidues b (maxKOf rules) tbl ≠ [] then
      .error (.missing (missingResidues b (maxKOf rules) tbl) (b ^ maxKOf rules))
    else .ok tbl)

/-- The flat list of writes of one rule, in loop order. -/
def ruleWrites (b maxK : ℕ) (ru : Rule) : List (ℕ × ℕ × RuleRight) :=
  (List.range (maxK - ru.K + 1)).flatMap (fun m =>
    (List.range (b ^ m)).map (fun ell =>
      (ru.K + m, ru.r + 2 ^ ru.K * ell, ⟨ru.k + m, ru.s * (b : ℤ) ^ m, ru.t⟩)))

/-- All writes of the expansion loop, in loop order. -/
def allWrites (b maxK : ℕ) (rules : List Rule) : List (ℕ × ℕ × RuleRight) :=
  rules.flatMap (ruleWrites b maxK)

/-- One write as a table transformation. -/
def applyWrite (b : ℕ) (tbl : ResTable) (w : ℕ × ℕ × RuleRight) :
    Except CoverErr ResTable :=
  match tbl w.1 w.2.1 with
  | some _ => .error (.conflicting w.2.1 (b ^ w.1))
  | none => .ok (tableSet tbl w.1 w.2.1 w.2.2)

/-- The slot a write fills. -/
def wTarget (w : ℕ × ℕ × RuleRight) : ℕ × ℕ := (w.1, w.2.1)

/-- The number of expanded top-level rules covering the residue class `R`
modulo `base^max_K`. -/
def topCover (b : ℕ) (rules : List Rule) (R : ℕ) : ℕ :=
  (rules.map (fun ru =>
    ((List.range (b ^ (maxKOf rules - ru.K))).filter
      (fun ell => ru.r + 2 ^ ru.K * ell = R)).length)).sum

lemma foldlM_map' {α β γ : Type} (g : α → β) (step : γ → β → Except CoverErr γ)
    (l : List α) (init : γ) :
    (l.map g).foldlM step init = l.foldlM (fun acc a => step acc (g a)) init := by
  induction l generalizing init with
  | nil => rfl
  | cons a as ih =>
    rw [List.map_cons, List.foldlM_cons, List.foldlM_cons]
    cases step init (g a) with
    | error e => rfl
    | ok acc => exact ih acc

lemma foldlM_flatMap' {α β γ : Type} (g : α → List β) (step : γ → β → Except CoverErr γ)
    (l : List α) (init : γ) :
    (l.flatMap g).foldlM step init =
      l.foldlM (fun acc a => (g a).foldlM step acc) init := by
  induction l generalizing init with
  | nil => rfl
  | cons a as ih =>
    rw [List.flatMap_cons, List.foldlM_append, List.foldlM_cons]
    cases (g a).foldlM step init with
    | error e => rfl
    | ok acc => exact ih acc

lemma insertRule_eq_writes (b N : ℕ) (tbl : ResTable) (ru : Rule) :
    insertRule b N tbl ru = (ruleWrites b N ru).foldlM (applyWrite b) tbl := by
  rw [ruleWrites, foldlM_flatMap', insertRule]
  have hstep : (fun (acc : ResTable) (m : ℕ) =>
      ((List.range (b ^ m)).map (fun ell =>
        ((ru.K + m, ru.r + 2 ^ ru.K * ell,
          ⟨ru.k + m, ru.s * (b : ℤ) ^ m, ru.t⟩) : ℕ × ℕ × RuleRight))).foldlM
        (applyWrite b) acc) =
      (fun (acc : ResTable) (m : ℕ) =>
        (List.range (b ^ m)).foldlM (fun tbl ell => insertOne b ru m ell tbl) acc) := by
    funext acc m
    rw [foldlM_map']
    rfl
  rw [hstep]

lemma fold_eq_allWrites (b N : ℕ) (rules : List Rule) (tbl : ResTable) :
    rules.foldlM (insertRule b N) tbl = (allWrites b N rules).foldlM (applyWrite b) tbl := by
  rw [allWrites, foldlM_flatMap']
  have hstep : insertRule b N =
      (fun (acc : ResTable) (ru : Rule) => (ruleWrites b N ru).foldlM (applyWrite b) acc) := by
    funext acc ru
    exact insertRule_eq_writes b N acc ru
  rw [hstep]

lemma foldWrites_ok (b : ℕ) :
    ∀ (ws : List (ℕ × ℕ × RuleRight)) (tbl : ResTable),
    (∀ w ∈ ws, tbl w.1 w.2.1 = none) → (ws.map wTarget).Nodup →
    ∃ tbl', ws.foldlM (applyWrite b) tbl = .ok tbl' ∧
      ∀ L R, tbl' L R ≠ none ↔ (tbl L R ≠ none ∨ (L, R) ∈ ws.map wTarget) := by
  intro ws
  induction ws with
  | nil =>
    intro tbl _ _
    exact ⟨tbl, rfl, by simp⟩
  | cons w ws ih =>
    intro tbl hnone hnd
    have hw : tbl w.1 w.2.1 = none := hnone w (List.mem_cons_self w ws)
    rw [List.map_cons, List.nodup_cons] at hnd
    have hnone2 : ∀ w' ∈ ws, tableSet tbl w.1 w.2.1 w.2.2 w'.1 w'.2.1 = none := by
      intro w' hw'
      rw [tableSet]
      rw [if_neg ?_]
      · exact hnone w' (List.mem_cons_of_mem w hw')
      · rintro ⟨h1, h2⟩
        exact hnd.1 (by
          rw [List.mem_map]
          exact ⟨w', hw', by rw [wTarget, wTarget, h1, h2]⟩)
    obtain ⟨tbl', hfold, hiff⟩ := ih (tableSet tbl w.1 w.2.1 w.2.2) hnone2 hnd.2
    refine ⟨tbl', ?_, ?_⟩
    · rw [List.foldlM_cons]
      have happ : applyWrite b tbl w = .ok (tableSet tbl w.1 w.2.1 w.2.2) := by
        rw [applyWrite, hw]
      rw [happ]
      exact hfold
    · intro L R
      rw [hiff L R, List.map_cons, List.mem_cons]
      constructor
      · rintro (hset | hmem)
        · rw [tableSet] at hset
          by_cases hLR : L = w.1 ∧ R = w.2.1
          · exact Or.inr (Or.inl (by rw [wTarget, hLR.1, hLR.2]))
          · rw [if_neg hLR] at hset
            exact Or.inl hset
        · exact Or.inr (Or.inr hmem)
      · rintro (htbl | heq | hmem)
        · left
          rw [tableSet]
          by_cases hLR : L = w.1 ∧ R = w.2.1
          · rw [if_pos hLR]
            simp
          · rw [if_neg hLR]
            exact htbl
        · left
          rw [tableSet, wTarget] at *
          have h1 : L = w.1 := congrArg Prod.fst heq
          have h2 : R = w.2.1 := congrArg Prod.snd heq
          rw [if_pos ⟨h1, h2⟩]
          simp
        · exact Or.inr hmem

lemma tableSet_ne_none (tbl : ResTable) (a c : ℕ) (rr : RuleRight) (L R : ℕ)
    (h : tbl L R ≠ none) : tableSet tbl a c rr L R ≠ none := by
  rw [tableSet]
  by_cases hLR : L = a ∧ R = c
  · rw [if_pos hLR]
    simp
  · rw [if_neg hLR]
    exact h

lemma foldWrites_err (b : ℕ) :
    ∀ (ws : List (ℕ × ℕ × RuleRight)) (tbl : ResTable),
    ¬ ((∀ w ∈ ws, tbl w.1 w.2.1 = none) ∧ (ws.map wTarget).Nodup) →
    ∃ R mo, ws.foldlM (applyWrite b) tbl = .error (.conflicting R mo) := by
  intro ws
  induction ws with
  | nil =>
    intro tbl h
    exact absurd ⟨by simp, by simp⟩ h
  | cons w ws ih =>
    intro tbl h
    by_cases hw : tbl w.1 w.2.1 = none
    · have hcond : ¬ ((∀ w' ∈ ws, tableSet tbl w.1 w.2.1 w.2.2 w'.1 w'.2.1 = none) ∧
          (ws.map wTarget).Nodup) := by
        rintro ⟨hall2, hnd2⟩
        apply h
        constructor
        · intro w' hw'
          rcases List.mem_cons.mp hw' with rfl | hw'
          · exact hw
          · have h2 := hall2 w' hw'
            rw [tableSet] at h2
            by_cases hLR : w'.1 = w.1 ∧ w'.2.1 = w.2.1
            · rw [if_pos hLR] at h2
              cases h2
            · rw [if_neg hLR] at h2
              exact h2
        · rw [List.map_cons, List.nodup_cons]
          refine ⟨?_, hnd2⟩
          intro hmem
          obtain ⟨w', hw', htg⟩ := List.mem_map.mp hmem
          have h2 := hall2 w' hw'
          have htg' : (w'.1, w'.2.1) = (w.1, w.2.1) := htg
          injection htg' with h1 h2'
          rw [tableSet, if_pos ⟨h1, h2'⟩] at h2
          cases h2
      obtain ⟨R, mo, herr⟩ := ih (tableSet tbl w.1 w.2.1 w.2.2) hcond
      refine ⟨R, mo, ?_⟩
      rw [List.foldlM_cons]
      have happ : applyWrite b tbl w = .ok (tableSet tbl w.1 w.2.1 w.2.2) := by
        rw [applyWrite, hw]
      rw [happ]
      exact herr
    · obtain ⟨rr, hrr⟩ := Option.ne_none_iff_exists'.mp hw
      refine ⟨w.2.1, b ^ w.1, ?_⟩
      rw [List.foldlM_cons]
      have happ : applyWrite b tbl w = .error (.conflicting w.2.1 (b ^ w.1)) := by
        rw [applyWrite, hrr]
      rw [happ]
      rfl

/-- The slots written by the expansion loop. -/
def targetsOf (b : ℕ) (rules : List Rule) : List (ℕ × ℕ) :=
  (allWrites b (maxKOf rules) rules).map wTarget

lemma buildResidues_characterization (b : ℕ) (rules : List Rule) :
    ((∃ tbl, buildResidues b rules = .ok tbl) ↔
      ((targetsOf b rules).Nodup ∧
        ∀ R < b ^ maxKOf rules, (maxKOf rules, R) ∈ targetsOf b rules)) ∧
    ((∃ R mo, buildResidues b rules = .error (.conflicting R mo)) ↔
      ¬ (targetsOf b rules).Nodup) ∧
    ((∃ l mo, buildResidues b rules = .error (.missing l mo)) ↔
      ((targetsOf b rules).Nodup ∧
        ∃ R < b ^ maxKOf rules, (maxKOf rules, R) ∉ targetsOf b rules)) := by
  by_cases hnd : (targetsOf b rules).Nodup
  · obtain ⟨tbl', hfold, hiff⟩ := foldWrites_ok b (allWrites b (maxKOf rules) rules)
      emptyTable (fun w _ => rfl) hnd
    have hiff' : ∀ L R, tbl' L R ≠ none ↔ (L, R) ∈ targetsOf b rules := by
      intro L R
      rw [hiff L R]
      constructor
      · rintro (he | hm)
        · exact absurd rfl he
        · exact hm
      · exact Or.inr
    have hbuild : buildResidues b rules =
        (if missingResidues b (maxKOf rules) tbl' ≠ [] then
          .error (.missing (missingResidues b (maxKOf rules) tbl') (b ^ maxKOf rules))
        else .ok tbl') := by
      rw [buildResidues, fold_eq_allWrites, hfold]
      rfl
    have hmiss : missingResidues b (maxKOf rules) tbl' = [] ↔
        ∀ R < b ^ maxKOf rules, (maxKOf rules, R) ∈ targetsOf b rules := by
      rw [missingResidues, List.filter_eq_nil_iff]
      constructor
      · intro hall R hR
        have := hall R (List.mem_range.mpr hR)
        rw [← hiff' (maxKOf rules) R]
        simpa using this
      · intro hall R hR
        have := (hiff' (maxKOf rules) R).mpr (hall R (List.mem_range.mp hR))
        simpa using this
    by_cases hm : missingResidues b (maxKOf rules) tbl' = []
    · rw [hm] at hbuild
      simp only [ne_eq, not_true_eq_false] at hbuild
      rw [if_neg (by simp)] at hbuild
      refine ⟨?_, ?_, ?_⟩
      · simp only [hbuild]
        constructor
        · intro _
          exact ⟨hnd, hmiss.mp hm⟩
        · intro _
          exact ⟨tbl', rfl⟩
      · simp only [hbuild]
        constructor
        · rintro ⟨R, mo, hc⟩
          exact Except.noConfusion hc
        · intro hc
          exact absurd hnd hc
      · simp only [hbuild]
        constructor
        · rintro ⟨l, mo, hc⟩
          exact Except.noConfusion hc
        · rintro ⟨_, R, hR, hnotin⟩
          exact absurd (hmiss.mp hm R hR) hnotin
    · rw [if_pos hm] at hbuild
      refine ⟨?_, ?_, ?_⟩
      · rw [hbuild]
        constructor
        · rintro ⟨tbl, hc⟩
          exact Except.noConfusion hc
        · rintro ⟨_, hall⟩
          exact absurd (hmiss.mpr hall) hm
      · rw [hbuild]
        constructor
        · rintro ⟨R, mo, hc⟩
          cases hc
        · intro hc
          exact absurd hnd hc
      · rw [hbuild]
        constructor
        · intro _
          refine ⟨hnd, ?_⟩
          by_contra hc
          push_neg at hc
          exact hm (hmiss.mpr hc)
        · intro _
          exact ⟨_, _, rfl⟩
  · obtain ⟨R, mo, herr⟩ := foldWrites_err b (allWrites b (maxKOf rules) rules)
      emptyTable (fun hc => hnd hc.2)
    have hbuild : buildResidues b rules = .error (.conflicting R mo) := by
      rw [buildResidues, fold_eq_allWrites, herr]
      rfl
    refine ⟨?_, ?_, ?_⟩
    · rw [hbuild]
      constructor
      · rintro ⟨tbl, hc⟩
        exact Except.noConfusion hc
      · rintro ⟨hc, _⟩
        exact absurd hc hnd
    · rw [hbuild]
      constructor
      · intro _
        exact hnd
      · intro _
        exact ⟨R, mo, rfl⟩
    · rw [hbuild]
      constructor
      · rintro ⟨l, mo', hc⟩
        cases hc
      · rintro ⟨hc, _⟩
        exact absurd hc hnd

lemma sum_map_range_ite (t m₀ : ℕ) (c : ℕ → ℕ) :
    ((List.range t).map (fun m => if m = m₀ then c m else 0)).sum =
      if m₀ < t then c m₀ else 0 := by
  induction t with
  | zero => simp
  | succ t ih =>
    rw [List.range_succ, List.map_append, List.sum_append, ih]
    by_cases h : m₀ < t
    · rw [if_pos h, if_pos (by omega)]
      have hne : ¬ (t = m₀) := by omega
      simp [hne]
    · rw [if_neg h]
      by_cases h2 : t = m₀
      · subst h2
        rw [if_pos (by omega)]
        simp
      · rw [if_neg (by omega)]
        simp [h2]

lemma foldl_max_le (l : List Rule) :
    ∀ a : ℕ, a ≤ l.foldl (fun a ru => max a ru.K) a ∧
      ∀ ru ∈ l, ru.K ≤ l.foldl (fun a ru => max a ru.K) a := by
  induction l with
  | nil => intro a; exact ⟨le_refl a, by simp⟩
  | cons ru' rest ih =>
    intro a
    rw [List.foldl_cons]
    obtain ⟨h1, h2⟩ := ih (max a ru'.K)
    refine ⟨le_trans (le_max_left a ru'.K) h1, ?_⟩
    intro ru hm
    rcases List.mem_cons.mp hm with rfl | hm
    · exact le_trans (le_max_right a ru.K) h1
    · exact h2 ru hm

lemma le_maxKOf (rules : List Rule) (ru : Rule) (h : ru ∈ rules) :
    ru.K ≤ maxKOf rules :=
  (foldl_max_le rules 0).2 ru h

lemma countP_targets (b N : ℕ) (rules : List Rule) (L R : ℕ) :
    ((allWrites b N rules).map wTarget).countP (fun x => x = (L, R)) =
      (rules.map (fun ru =>
        ((ruleWrites b N ru).map wTarget).countP (fun x => x = (L, R)))).sum := by
  rw [allWrites, List.map_flatMap, List.flatMap_def, List.countP_flatten, List.map_map]
  rfl

lemma countP_ruleWrites (b N : ℕ) (ru : Rule) (hK : ru.K ≤ N) (L R : ℕ) :
    ((ruleWrites b N ru).map wTarget).countP (fun x => x = (L, R)) =
      if ru.K ≤ L ∧ L ≤ N then
        ((List.range (b ^ (L - ru.K))).filter
          (fun ell => ru.r + 2 ^ ru.K * ell = R)).length
      else 0 := by
  rw [ruleWrites, List.map_flatMap, List.flatMap_def, List.countP_flatten, List.map_map]
  have hblock : ∀ m : ℕ,
      (((List.range (b ^ m)).map
          (fun ell => ((ru.K + m, ru.r + 2 ^ ru.K * ell,
            (⟨ru.k + m, ru.s * (b : ℤ) ^ m, ru.t⟩ : RuleRight)) :
              ℕ × ℕ × RuleRight))).map wTarget).countP (fun x => x = (L, R)) =
        if ru.K + m = L then
          ((List.range (b ^ m)).filter (fun ell => ru.r + 2 ^ ru.K * ell = R)).length
        else 0 := by
    intro m
    rw [List.map_map, List.countP_map]
    by_cases hm : ru.K + m = L
    · rw [if_pos hm, ← List.countP_eq_length_filter]
      apply List.countP_congr
      intro ell _
      simp only [Function.comp_apply, wTarget, Prod.mk.injEq, decide_eq_true_eq]
      constructor
      · rintro ⟨h1, h2⟩
        exact h2
      · intro h2
        exact ⟨hm, h2⟩
    · rw [if_neg hm]
      apply List.countP_eq_zero.mpr
      intro ell _
      simp only [Function.comp_apply, wTarget, Prod.mk.injEq, decide_eq_true_eq]
      rintro ⟨h1, _⟩
      exact hm h1
  have hmap : ((List.range (N - ru.K + 1)).map
      (List.countP (fun x => decide (x = (L, R))) ∘ fun m =>
        ((List.range (b ^ m)).map
          (fun ell => ((ru.K + m, ru.r + 2 ^ ru.K * ell,
            (⟨ru.k + m, ru.s * (b : ℤ) ^ m, ru.t⟩ : RuleRight)) :
              ℕ × ℕ × RuleRight))).map wTarget)) =
      ((List.range (N - ru.K + 1)).map (fun m =>
        if ru.K + m = L then
          ((List.range (b ^ m)).filter (fun ell => ru.r + 2 ^ ru.K * ell = R)).length
        else 0)) := by
    apply List.map_congr_left
    intro m _
    exact hblock m
  rw [hmap]
  by_cases hKL : ru.K ≤ L
  · have hcond : ∀ m, (ru.K + m = L) = (m = L - ru.K) := by
      intro m
      apply propext
      omega
    simp only [hcond]
    rw [sum_map_range_ite]
    by_cases hLN : L ≤ N
    · rw [if_pos (by omega), if_pos ⟨hKL, hLN⟩]
    · rw [if_neg (by omega), if_neg (fun hc => hLN hc.2)]
  · rw [List.sum_eq_zero_iff.mpr (by
      intro x hx
      obtain ⟨m, hm, rfl⟩ := List.mem_map.mp hx
      rw [if_neg (by omega)])]
    rw [if_neg (fun hc => hKL hc.1)]

lemma countP_le_top (b : ℕ) (hb : 1 ≤ b) (rules : List Rule) (L R : ℕ) :
    ((allWrites b (maxKOf rules) rules).map wTarget).countP (fun x => x = (L, R)) ≤
      ((allWrites b (maxKOf rules) rules).map wTarget).countP
        (fun x => x = (maxKOf rules, R)) := by
  rw [countP_targets, countP_targets]
  apply List.sum_le_sum
  intro ru hru
  have hK := le_maxKOf rules ru hru
  rw [countP_ruleWrites b (maxKOf rules) ru hK, countP_ruleWrites b (maxKOf rules) ru hK]
  by_cases hcond : ru.K ≤ L ∧ L ≤ maxKOf rules
  · rw [if_pos hcond, if_pos ⟨hK, le_refl _⟩]
    have hsub : List.Sublist
        ((List.range (b ^ (L - ru.K))).filter (fun ell => ru.r + 2 ^ ru.K * ell = R))
        ((List.range (b ^ (maxKOf rules - ru.K))).filter
          (fun ell => ru.r + 2 ^ ru.K * ell = R)) :=
      List.Sublist.filter _
        (List.range_sublist.mpr (Nat.pow_le_pow_right hb (by omega)))
    exact hsub.length_le
  · rw [if_neg hcond]
    exact Nat.zero_le _

lemma topCover_eq_countP (b : ℕ) (rules : List Rule) (R : ℕ) :
    topCover b rules R =
      ((allWrites b (maxKOf rules) rules).map wTarget).countP
        (fun x => x = (maxKOf rules, R)) := by
  rw [countP_targets, topCover]
  congr 1
  apply List.map_congr_left
  intro ru hru
  rw [countP_ruleWrites b (maxKOf rules) ru (le_maxKOf rules ru hru),
    if_pos ⟨le_maxKOf rules ru hru, le_refl _⟩]

lemma nodup_iff_countP (l : List (ℕ × ℕ)) :
    l.Nodup ↔ ∀ a : ℕ × ℕ, l.countP (fun x => x = a) ≤ 1 := by
  rw [List.nodup_iff_count_le_one]
  have hc : ∀ a : ℕ × ℕ, @List.count _ instBEqOfDecidableEq a l =
      l.countP (fun x => x = a) := fun a => rfl
  constructor
  · intro h a
    rw [← hc a]
    exact h a
  · intro h a
    rw [hc a]
    exact h a

lemma topCover_pos_lt (b : ℕ) (hb : 2 ≤ b) (rules : List Rule)
    (hval : ∀ ru ∈ rules, ru.r < b ^ ru.K) (R : ℕ)
    (h : 1 ≤ topCover b rules R) : R < b ^ maxKOf rules := by
  rw [topCover] at h
  have hex : ∃ x ∈ rules.map (fun ru =>
      ((List.range (b ^ (maxKOf rules - ru.K))).filter
        (fun ell => ru.r + 2 ^ ru.K * ell = R)).length), x ≠ 0 := by
    by_contra hc
    push_neg at hc
    rw [List.sum_eq_zero_iff.mpr hc] at h
    omega
  obtain ⟨x, hx, hxne⟩ := hex
  obtain ⟨ru, hru, rfl⟩ := List.mem_map.mp hx
  have hfil : ((List.range (b ^ (maxKOf rules - ru.K))).filter
      (fun ell => ru.r + 2 ^ ru.K * ell = R)) ≠ [] := by
    intro hc
    rw [hc] at hxne
    exact hxne rfl
  obtain ⟨ell, hell⟩ := List.exists_mem_of_ne_nil _ hfil
  rw [List.mem_filter] at hell
  have hell1 : ell < b ^ (maxKOf rules - ru.K) := List.mem_range.mp hell.1
  have hell2 : ru.r + 2 ^ ru.K * ell = R := by simpa using hell.2
  have hK : ru.K ≤ maxKOf rules := le_maxKOf rules ru hru
  have h2K : 2 ^ ru.K ≤ b ^ ru.K := Nat.pow_le_pow_left hb ru.K
  have hsplit : b ^ maxKOf rules = b ^ ru.K * b ^ (maxKOf rules - ru.K) := by
    rw [← pow_add]
    congr 1
    omega
  have hrK : ru.r < b ^ ru.K := hval ru hru
  calc R = ru.r + 2 ^ ru.K * ell := hell2.symm
    _ < b ^ ru.K + 2 ^ ru.K * ell := by omega
    _ ≤ b ^ ru.K + b ^ ru.K * ell := by
        have := Nat.mul_le_mul_right ell h2K
        omega
    _ = b ^ ru.K * (ell + 1) := by ring
    _ ≤ b ^ ru.K * b ^ (maxKOf rules - ru.K) := by
        apply Nat.mul_le_mul_left
        omega
    _ = b ^ maxKOf rules := hsplit.symm

/-- **C8.** After parsing, `Recursion` raises `ValueError` unless every
residue class modulo `base^max_K` is covered by exactly one expanded rule:
it reports `Conflicting rules congruent to R modulo m.` when two expanded
rules cover a common residue class, and `Missing recursions for input
congruent to [...] modulo m.` when some residue class is covered by no
rule.  (`topCover` counts the expanded rules, with the source's literal
`2**rule.K` expansion, covering a class at the top level.) -/
theorem claim_C8 (b : ℕ) (rules : List Rule) (hb : 2 ≤ b) (hne : rules ≠ [])
    (hval : ∀ ru ∈ rules, ru.r < b ^ ru.K) :
    ((∃ tbl, buildResidues b rules = .ok tbl) ↔
      ∀ R < b ^ maxKOf rules, topCover b rules R = 1) ∧
    ((∃ R mo, buildResidues b rules = .error (.conflicting R mo)) ↔
      ∃ R < b ^ maxKOf rules, 2 ≤ topCover b rules R) ∧
    ((∃ l mo, buildResidues b rules = .error (.missing l mo)) ↔
      ((∀ R < b ^ maxKOf rules, topCover b rules R ≤ 1) ∧
        ∃ R < b ^ maxKOf rules, topCover b rules R = 0)) := by
  obtain ⟨hok, hconf, hmiss⟩ := buildResidues_characterization b rules
  have hnodup_iff : (targetsOf b rules).Nodup ↔
      ∀ R < b ^ maxKOf rules, topCover b rules R ≤ 1 := by
    rw [targetsOf, nodup_iff_countP]
    constructor
    · intro hall R _
      rw [topCover_eq_countP]
      exact hall (maxKOf rules, R)
    · intro hall a
      rcases a with ⟨L, R⟩
      refine le_trans (countP_le_top b (by omega) rules L R) ?_
      rw [← topCover_eq_countP]
      by_cases hR : R < b ^ maxKOf rules
      · exact hall R hR
      · by_contra hc
        push_neg at hc
        exact hR (topCover_pos_lt b hb rules hval R (by omega))
  have hmem_iff : ∀ R, (maxKOf rules, R) ∈ targetsOf b rules ↔
      1 ≤ topCover b rules R := by
    intro R
    rw [topCover_eq_countP, targetsOf]
    constructor
    · intro hmem
      have hp : 0 < ((allWrites b (maxKOf rules) rules).map wTarget).countP
          (fun x => x = (maxKOf rules, R)) :=
        List.countP_pos_iff.mpr ⟨(maxKOf rules, R), hmem, by exact decide_eq_true rfl⟩
      omega
    · intro hpos
      obtain ⟨a, hmem, ha⟩ := List.countP_pos_iff.mp (by omega : 0 <
        ((allWrites b (maxKOf rules) rules).map wTarget).countP
          (fun x => x = (maxKOf rules, R)))
      have ha' : a = (maxKOf rules, R) := by simpa using ha
      rw [← ha']
      exact hmem
  refine ⟨?_, ?_, ?_⟩
  · rw [hok, hnodup_iff]
    constructor
    · rintro ⟨h1, h2⟩ R hR
      have := h1 R hR
      have := (hmem_iff R).mp (h2 R hR)
      omega
    · intro hall
      refine ⟨fun R hR => le_of_eq (hall R hR), fun R hR => (hmem_iff R).mpr ?_⟩
      rw [hall R hR]
  · rw [hconf, hnodup_iff]
    constructor
    · intro hc
      push_neg at hc
      obtain ⟨R, hR, h2⟩ := hc
      exact ⟨R, hR, by omega⟩
    · rintro ⟨R, hR, h2⟩ hall
      have := hall R hR
      omega
  · rw [hmiss, hnodup_iff]
    constructor
    · rintro ⟨h1, R, hR, hnotin⟩
      refine ⟨h1, R, hR, ?_⟩
      by_contra h0
      exact hnotin ((hmem_iff R).mpr (by omega))
    · rintro ⟨h1, R, hR, h0⟩
      refine ⟨h1, R, hR, ?_⟩
      rw [hmem_iff R]
      omega

/-- A witness running C8 on the parsed rules of
`[f(2*n) == f(n), f(4*n + 1) == f(2*n) + 1, f(4*n + 3) == f(n) + 2]`
with base `2`: every residue class modulo `4` is covered exactly once, so
the construction succeeds. -/
theorem claim_C8_witness :
    (∀ R < 2 ^ maxKOf [⟨1, 0, 0, 0, 0⟩, ⟨2, 1, 1, 0, 1⟩, ⟨2, 3, 0, 0, 2⟩],
      topCover 2 [⟨1, 0, 0, 0, 0⟩, ⟨2, 1, 1, 0, 1⟩, ⟨2, 3, 0, 0, 2⟩] R = 1) ∧
    ∃ tbl, buildResidues 2 [⟨1, 0, 0, 0, 0⟩, ⟨2, 1, 1, 0, 1⟩, ⟨2, 3, 0, 0, 2⟩]
      = .ok tbl := by
  have hcov : ∀ R < 2 ^ maxKOf [(⟨1, 0, 0, 0, 0⟩ : Rule), ⟨2, 1, 1, 0, 1⟩, ⟨2, 3, 0, 0, 2⟩],
      topCover 2 [(⟨1, 0, 0, 0, 0⟩ : Rule), ⟨2, 1, 1, 0, 1⟩, ⟨2, 3, 0, 0, 2⟩] R = 1 := by
    decide
  exact ⟨hcov,
    (claim_C8 2 [⟨1, 0, 0, 0, 0⟩, ⟨2, 1, 1, 0, 1⟩, ⟨2, 3, 0, 0, 2⟩] (by omega)
      (by simp) (by decide)).1.mpr hcov⟩

/-! #### The transition function and the generated transducer of `Recursion`

`Recursion` builds the transducer from `transition_function` (source lines
1219–1228), initial state `(0, 0)` and input alphabet `range(base)`, marks
every state whose carry equals an initial-condition key as final with that
condition's value as final output, and returns the transducer `T`.  The
docstring promises `T(expansion) == f(n)` whenever `expansion` is the
base-`base` digit expansion of `n` (least significant digit first) and the
given equations and initial conditions define `f` uniquely. -/

/-- `transition_function((carry, look_ahead), input)` of `Recursion`: note
the literal `2**K` in the residue computation (not `base**K`).  The
division `(current - R) / base**K` is exact rational division in Sage;
it is exact in every step of the runs considered here, where it agrees
with the integer division used in this model.  Python `%` with a positive
modulus agrees with `Int.emod`. -/
def transitionFunction (base : ℕ) (residues : ResTable)
    (state : ℤ × ℕ) (input : ℤ) : (ℤ × ℕ) × List ℤ :=
  let current := state.1 + input * (base : ℤ) ^ state.2
  let K := state.2 + 1
  let R := current % (2 : ℤ) ^ K
  match residues K R.toNat with
  | some rule =>
    ((((current - R) / (base : ℤ) ^ K) * (base : ℤ) ^ rule.k + rule.s, rule.k),
      [rule.t])
  | none => ((current, K), [])

/-- Modelled from the spec: a run of the generated transducer (the host
framework's transducer processing) on an input word: fold the transition
function from the initial state `(0, 0)`, concatenating the transition
output words; returns the state reached and the full output word. -/
def runTransducer (base : ℕ) (residues : ResTable) (digits : List ℕ) :
    (ℤ × ℕ) × List ℤ :=
  digits.foldl (fun acc d =>
    ((transitionFunction base residues acc.1 (d : ℤ)).1,
      acc.2 ++ (transitionFunction base residues acc.1 (d : ℤ)).2))
    ((0, 0), [])

/-- The final output attached to a state by the `initial_values` loop of
`Recursion`: a state whose carry equals an initial-condition key is made
final with that condition's value as final output word
(`construct_final_word_out` extends finality to further states; every run
considered here ends in a state already covered by this loop). -/
def finalValue (inits : List (ℤ × ℤ)) (state : ℤ × ℕ) : Option ℤ :=
  (inits.find? (fun kv => kv.1 = state.1)).map Prod.snd

/-- The residue table of a successful `buildResidues` run (the empty table
when `buildResidues` raises, a case never reached below). -/
def builtTable (base : ℕ) (rules : List Rule) : ResTable :=
  match buildResidues base rules with
  | .ok tbl => tbl
  | .error _ => emptyTable

/-- `Recursion` on already-parsed rules and initial conditions, composed
with a run of the returned transducer: build the residue table (`none`
models the conflicting/missing `ValueError`s), run the transducer on the
input word and add the final output of the state reached to the sum of the
transition outputs (`none` when that state is not covered by an initial
condition).  The sum of the output word is the value the docstring promises
to equal `f(n)`. -/
def recursionValue (base : ℕ) (rules : List Rule) (inits : List (ℤ × ℤ))
    (digits : List ℕ) : Option ℤ :=
  match buildResidues base rules with
  | .error _ => none
  | .ok residues =>
    match finalValue inits (runTransducer base residues digits).1 with
    | none => none
    | some v => some ((runTransducer base residues digits).2.sum + v)

/-- The recursion equation `f(base^K*n + r) == f(base^k*n + s) + t` denoted
by a parsed rule, read as a constraint on `f : ℕ → ℤ` (the rules considered
below all have `s = 0 ≥ 0`, so reading `s` through `Int.toNat` is exact). -/
def RuleHolds (base : ℕ) (ru : Rule) (g : ℕ → ℤ) : Prop :=
  ∀ n : ℕ, g (base ^ ru.K * n + ru.r) = g (base ^ ru.k * n + ru.s.toNat) + ru.t

/-- The initial condition `f(key) == value` as a constraint on `f : ℕ → ℤ`. -/
def InitHolds (iv : ℤ × ℤ) (g : ℕ → ℤ) : Prop := g iv.1.toNat = iv.2

/-- `g` satisfies every recursion equation and every initial condition of
the input of `Recursion`. -/
def Satisfies (base : ℕ) (rules : List Rule) (inits : List (ℤ × ℤ))
    (g : ℕ → ℤ) : Prop :=
  (∀ ru ∈ rules, RuleHolds base ru g) ∧ ∀ iv ∈ inits, InitHolds iv g

/-- The parsed rules of the recursion system `f(2n) == f(n)`,
`f(4n+1) == f(2n) + 1`, `f(4n+3) == f(n) + 2` to base `2`. -/
def rulesC1 : List Rule := [⟨1, 0, 0, 0, 0⟩, ⟨2, 1, 1, 0, 1⟩, ⟨2, 3, 0, 0, 2⟩]

/-- The initial conditions `f(0) == 0`, `f(1) == 1`. -/
def initsC1 : List (ℤ × ℤ) := [(0, 0), (1, 1)]

/-- The binary expansion of `5`, least significant digit first. -/
def digitsC1 : List ℕ := [1, 0, 1]

/-- The states of the transducer generated for `rulesC1`/`initsC1`:
the set reachable from the initial state `(0, 0)`. -/
def statesC1 : List (ℤ × ℕ) := [(0, 0), (1, 1), (0, 1)]

/-- The unique solution of the system `rulesC1`/`initsC1`. -/
def FC1 : ℕ → ℤ
  | 0 => 0
  | 1 => 1
  | (m + 2) =>
    if (m + 2) % 2 = 0 then FC1 ((m + 2) / 2)
    else if (m + 2) % 4 = 1 then FC1 ((m + 2) / 2) + 1
    else FC1 ((m + 2) / 4) + 2
decreasing_by
  all_goals simp_wf
  all_goals omega

lemma FC1_zero : FC1 0 = 0 := by simp [FC1]

lemma FC1_one : FC1 1 = 1 := by simp [FC1]

lemma FC1_ge2 (m : ℕ) (h : 2 ≤ m) :
    FC1 m = if m % 2 = 0 then FC1 (m / 2)
      else if m % 4 = 1 then FC1 (m / 2) + 1 else FC1 (m / 4) + 2 := by
  obtain ⟨m', rfl⟩ : ∃ m', m = m' + 2 := ⟨m - 2, by omega⟩
  conv_lhs => rw [FC1]

lemma FC1_even (n : ℕ) (h : 1 ≤ n) : FC1 (2 * n) = FC1 n := by
  rw [FC1_ge2 (2 * n) (by omega), if_pos (by omega : 2 * n % 2 = 0)]
  congr 1
  omega

lemma FC1_odd1 (n : ℕ) : FC1 (4 * n + 1) = FC1 (2 * n) + 1 := by
  cases n with
  | zero => rw [FC1_one]; rw [(by norm_num : 2 * 0 = 0), FC1_zero]; norm_num
  | succ n' =>
    rw [FC1_ge2 (4 * (n' + 1) + 1) (by omega),
      if_neg (by omega : ¬ (4 * (n' + 1) + 1) % 2 = 0),
      if_pos (by omega : (4 * (n' + 1) + 1) % 4 = 1)]
    have harg : (4 * (n' + 1) + 1) / 2 = 2 * (n' + 1) := by omega
    rw [harg]

lemma FC1_odd3 (n : ℕ) : FC1 (4 * n + 3) = FC1 n + 2 := by
  rw [FC1_ge2 (4 * n + 3) (by omega),
    if_neg (by omega : ¬ (4 * n + 3) % 2 = 0),
    if_neg (by omega : ¬ (4 * n + 3) % 4 = 1)]
  have harg : (4 * n + 3) / 4 = n := by omega
  rw [harg]

/-- The five constraints of `rulesC1`/`initsC1`, extracted. -/
lemma satisfies_c1_unfold (g : ℕ → ℤ) (hg : Satisfies 2 rulesC1 initsC1 g) :
    (∀ n : ℕ, g (2 * n) = g n) ∧ (∀ n : ℕ, g (4 * n + 1) = g (2 * n) + 1) ∧
    (∀ n : ℕ, g (4 * n + 3) = g n + 2) ∧ g 0 = 0 ∧ g 1 = 1 := by
  obtain ⟨hr, hi⟩ := hg
  refine ⟨?_, ?_, ?_, ?_, ?_⟩
  · have h := hr ⟨1, 0, 0, 0, 0⟩ (by simp [rulesC1])
    unfold RuleHolds at h
    intro n
    have hn := h n
    norm_num at hn
    exact hn
  · have h := hr ⟨2, 1, 1, 0, 1⟩ (by simp [rulesC1])
    unfold RuleHolds at h
    intro n
    have hn := h n
    norm_num at hn
    exact hn
  · have h := hr ⟨2, 3, 0, 0, 2⟩ (by simp [rulesC1])
    unfold RuleHolds at h
    intro n
    have hn := h n
    norm_num at hn
    exact hn
  · have h := hi (0, 0) (by simp [initsC1])
    unfold InitHolds at h
    simpa using h
  · have h := hi (1, 1) (by simp [initsC1])
    unfold InitHolds at h
    simpa using h

lemma FC1_sat : Satisfies 2 rulesC1 initsC1 FC1 := by
  constructor
  · intro ru hru
    simp only [rulesC1, List.mem_cons, List.not_mem_nil, or_false] at hru
    rcases hru with rfl | rfl | rfl
    · intro n
      norm_num
      cases n with
      | zero => norm_num
      | succ n' => exact FC1_even (n' + 1) (by omega)
    · intro n
      norm_num
      exact FC1_odd1 n
    · intro n
      norm_num
      exact FC1_odd3 n
  · intro iv hiv
    simp only [initsC1, List.mem_cons, List.not_mem_nil, or_false] at hiv
    rcases hiv with rfl | rfl
    · unfold InitHolds
      simpa using FC1_zero
    · unfold InitHolds
      simpa using FC1_one

lemma satisfies_c1_eq (g : ℕ → ℤ) (hg : Satisfies 2 rulesC1 initsC1 g) :
    ∀ m, g m = FC1 m := by
  obtain ⟨h2, h41, h43, h0, h1⟩ := satisfies_c1_unfold g hg
  intro m
  induction m using Nat.strong_induction_on with
  | _ m ih =>
    rcases Nat.lt_or_ge m 2 with hm | hm
    · interval_cases m
      · rw [FC1_zero]; exact h0
      · rw [FC1_one]; exact h1
    · rcases (by omega : m % 2 = 0 ∨ m % 4 = 1 ∨ m % 4 = 3) with hmod | hmod | hmod
      · have hq : m = 2 * (m / 2) := by omega
        rw [hq, h2 (m / 2), ih (m / 2) (by omega), ← FC1_even (m / 2) (by omega)]
      · have hq : m = 4 * (m / 4) + 1 := by omega
        rw [hq, h41 (m / 4), ih (2 * (m / 4)) (by omega), ← FC1_odd1 (m / 4)]
      · have hq : m = 4 * (m / 4) + 3 := by omega
        rw [hq, h43 (m / 4), ih (m / 4) (by omega), ← FC1_odd3 (m / 4)]

/-- **C1.** The docstring of `transducers.Recursion` promises that whenever
the given equations and initial conditions define `f` uniquely, the
returned transducer computes `f(n)` on the digit expansion of `n`.  This is
refuted by a counterexample: the system `f(2n) == f(n)`,
`f(4n+1) == f(2n) + 1`, `f(4n+3) == f(n) + 2`, `f(0) == 0`, `f(1) == 1` to
base `2` (parsed rules `rulesC1`, initial conditions `initsC1`) has a
unique solution with `f(5) = 2`; the residue-table construction succeeds,
the construction of the transducer terminates with the three states
`statesC1`, all of which are made final by the initial conditions; yet the
run on `[1, 0, 1]`, the binary expansion of `5` least significant digit
first, outputs total `1 ≠ 2`.  The defect is the residue expansion
`RuleRight(k=rule.k + m, s=rule.s * base**m, t=rule.t)` at residue
`rule.r + 2**rule.K * ell`, which stores the wrong shift `s` for the
expanded rule (the substitution `n ↦ base^m * n + ell` in
`f(base^k*n + s)` gives `s + base^k * ell`, not `s * base^m`): here the
level-2 entry at residue `2` holds `s = 0` instead of `s = 1`, so the final
`1` of the expansion is dropped from the carry. -/
theorem claim_C1 :
    (∃! g : ℕ → ℤ, Satisfies 2 rulesC1 initsC1 g) ∧
    (∀ g : ℕ → ℤ, Satisfies 2 rulesC1 initsC1 g → g 5 = 2) ∧
    Nat.ofDigits 2 digitsC1 = 5 ∧
    buildResidues 2 rulesC1 = .ok (builtTable 2 rulesC1) ∧
    ((0 : ℤ), (0 : ℕ)) ∈ statesC1 ∧
    (∀ st ∈ statesC1, ∀ d ∈ List.range 2,
      (transitionFunction 2 (builtTable 2 rulesC1) st (d : ℤ)).1 ∈ statesC1) ∧
    (∀ st ∈ statesC1, finalValue initsC1 st ≠ none) ∧
    (∀ iv ∈ initsC1, ∃ st ∈ statesC1, st.1 = iv.1) ∧
    recursionValue 2 rulesC1 initsC1 digitsC1 = some 1 ∧
    (1 : ℤ) ≠ 2 := by
  refine ⟨⟨FC1, FC1_sat, fun g hg => funext (satisfies_c1_eq g hg)⟩,
    ?_, by decide, rfl, by decide, by decide, by decide, by decide, by decide,
    by decide⟩
  intro g hg
  obtain ⟨h2, h41, h43, h0, h1⟩ := satisfies_c1_unfold g hg
  have e1 : g 5 = g 2 + 1 := by
    have h := h41 1
    norm_num at h
    exact h
  have e2 : g 2 = g 1 := by
    have h := h2 1
    norm_num at h
    exact h
  rw [e1, e2, h1]
  norm_num


end SageVerify
